import Mathlib

/-!
Verification development for the landbot-runner repository.

Texts are embedded as `List Char`.  The JavaScript string primitives used by
the scripts (regex replaces, `trim`, `toLowerCase`, `split`, `join`,
`slice`, `indexOf`) are embedded as executable Lean functions over
`List Char`, following the source of `scripts/risk-scan.mjs`,
`scripts/risk_scan_build_payload.mjs`, `scripts/process_queue_worker.mjs`
and the `risk_engine` edge function.
-/

namespace Landbot

/-- The JavaScript `\s` character class (the whitespace set used by
`trim`, `\s+` and `[ \t]` handling in the scripts). -/
def isJsWs (c : Char) : Bool :=
  c = ' ' ∨ c = '\t' ∨ c = '\n' ∨ c = '\r' ∨
  c.toNat = 0x000B ∨ c.toNat = 0x000C ∨
  c.toNat = 0x00A0 ∨ c.toNat = 0x1680 ∨
  (0x2000 ≤ c.toNat ∧ c.toNat ≤ 0x200A) ∨
  c.toNat = 0x2028 ∨ c.toNat = 0x2029 ∨ c.toNat = 0x202F ∨ c.toNat = 0x205F ∨
  c.toNat = 0x3000 ∨ c.toNat = 0xFEFF

/-- JavaScript `toLowerCase`, restricted to its action on the alphabet the
pipeline handles (ASCII letters are folded; Hebrew letters, digits,
punctuation and whitespace are fixed points of `toLowerCase`). -/
def jsLower (c : Char) : Char :=
  if 65 ≤ c.toNat ∧ c.toNat ≤ 90 then Char.ofNat (c.toNat + 32) else c

/-- The Hebrew diacritics class of `risk-scan.mjs`:
`U+0591`-`U+05BD`, `U+05BF`, `U+05C1`-`U+05C2`, `U+05C4`-`U+05C7`. -/
def isHebDia (c : Char) : Bool :=
  (0x0591 ≤ c.toNat ∧ c.toNat ≤ 0x05BD) ∨ c.toNat = 0x05BF ∨
  (0x05C1 ≤ c.toNat ∧ c.toNat ≤ 0x05C2) ∨
  (0x05C4 ≤ c.toNat ∧ c.toNat ≤ 0x05C7)

/-- The bidi-mark class of the edge function: `U+200F`, `U+200E`. -/
def isBidiMark (c : Char) : Bool := c.toNat = 0x200F ∨ c.toNat = 0x200E

/-- Left half of JavaScript `trim`. -/
def trimLeftJs (l : List Char) : List Char := l.dropWhile isJsWs

/-- JavaScript `String.prototype.trim` (drop leading and trailing `\s`). -/
def trimJs (l : List Char) : List Char :=
  trimLeftJs ((trimLeftJs l.reverse).reverse)

/-- Worker for `collapseRuns`: `inRun` records whether the previous
character was part of a run already replaced by a space. -/
def collapseAux (p : Char → Bool) : Bool → List Char → List Char
  | _, [] => []
  | inRun, c :: rest =>
    if p c then
      if inRun then collapseAux p true rest
      else ' ' :: collapseAux p true rest
    else c :: collapseAux p false rest

/-- Replace every maximal run of characters satisfying `p` by a single
space.  This is the JS regex replace `X+` -> `" "` for a character class
`X`; the scripts use it with `[ \t]+`, `\s+` and `\n+`. -/
def collapseRuns (p : Char → Bool) (l : List Char) : List Char :=
  collapseAux p false l

/-- JavaScript `split("\n")`: always returns at least one segment. -/
def splitOnNL : List Char → List (List Char)
  | [] => [[]]
  | c :: rest =>
    if c = '\n' then [] :: splitOnNL rest
    else (c :: (splitOnNL rest).headI) :: (splitOnNL rest).tail

/-- JavaScript `join("\n")`. -/
def joinNL : List (List Char) → List Char
  | [] => []
  | [l] => l
  | l :: ls => l ++ '\n' :: joinNL ls

/-- JavaScript `join(" ")`. -/
def joinSp : List (List Char) → List Char
  | [] => []
  | [l] => l
  | l :: ls => l ++ ' ' :: joinSp ls

/-- The composition `.replace(CRLF, LF).replace(CR, LF)` of
`risk-scan.mjs`: every CRLF pair and every lone CR becomes LF. -/
def convCR : List Char → List Char
  | [] => []
  | [c] => if c = '\r' then ['\n'] else [c]
  | c :: d :: rest =>
    if c = '\r' then
      if d = '\n' then '\n' :: convCR rest
      else '\n' :: convCR (d :: rest)
    else c :: convCR (d :: rest)

/-- `[ \t]` as a character-class predicate. -/
def isSpTab (c : Char) : Bool := c = ' ' ∨ c = '\t'

/-- The per-line operation of `normalizeTextKeepNewlines`:
collapse `[ \t]+` to a single space, then `trim`. -/
def lineOp (l : List Char) : List Char := trimJs (collapseRuns isSpTab l)

/-- `normalizeTextKeepNewlines` from `scripts/risk-scan.mjs`:
strip Hebrew diacritics, lowercase, CRLF/CR -> LF, collapse spaces and
tabs per line keeping newlines, trim the whole string. -/
def normalizeTextKeepNewlines (s : List Char) : List Char :=
  trimJs (joinNL ((splitOnNL (convCR ((s.filter (fun c => !isHebDia c)).map jsLower))).map lineOp))

/-- `normalizeInline` from `scripts/risk-scan.mjs`:
the keep-newlines normalization followed by `\n+` -> space,
`\s+` -> space and `trim`. -/
def normalizeInline (s : List Char) : List Char :=
  trimJs (collapseRuns isJsWs (collapseRuns (fun c => c = '\n') (normalizeTextKeepNewlines s)))

/-- The NFKC normalization used by the edge function, modelled char-wise on
the alphabet the pipeline handles (Hebrew base letters, ASCII, bidi marks
and whitespace are NFKC fixed points; the no-break space `U+00A0` has the
compatibility decomposition to a plain space). -/
def nfkcChar (c : Char) : Char := if c.toNat = 0x00A0 then ' ' else c

/-- `normalizeText` from the `risk_engine` edge function:
NFKC, lowercase, strip bidi marks, collapse `\s+`, trim. -/
def normalizeText (s : List Char) : List Char :=
  trimJs (collapseRuns isJsWs (((s.map nfkcChar).map jsLower).filter (fun c => !isBidiMark c)))

/-! ### A normal form for `normalizeTextKeepNewlines` -/
/-- Characters that survive the keep-newlines normalization: no Hebrew
diacritic, fixed by `toLowerCase`, no carriage return, no tab. -/
def goodChar (c : Char) : Prop :=
  isHebDia c = false ∧ jsLower c = c ∧ c ≠ '\r' ∧ c ≠ '\t'

/-- Adjacency constraints of normalized text: no run of two spaces/tabs,
and no whitespace other than `'\n'` adjacent to a newline. -/
def okPairP (c d : Char) : Prop :=
  ¬(isSpTab c = true ∧ isSpTab d = true) ∧
  (c = '\n' → (isJsWs d = false ∨ d = '\n')) ∧
  (d = '\n' → (isJsWs c = false ∨ c = '\n'))

/-- The image of `normalizeTextKeepNewlines`: good characters only, the
adjacency constraints, and no leading/trailing whitespace. -/
def KNLNormal (y : List Char) : Prop :=
  (∀ c ∈ y, goodChar c) ∧
  List.Chain' okPairP y ∧
  (∀ c ∈ y.head?, isJsWs c = false) ∧
  (∀ c ∈ y.getLast?, isJsWs c = false)

/-! ### Speaker extraction (`extractPatientOnlyByViewerRules`) -/
/-- Consume the optional WhatsApp timestamp group of the viewer regexes:
after leading whitespace, a bracketed group followed by whitespace.
Returns `none` when the group is not present (no opening bracket or no
closing bracket), mirroring regex backtracking into the no-group branch. -/
def dropBracket (l : List Char) : Option (List Char) :=
  match trimLeftJs l with
  | '[' :: rest =>
    match rest.dropWhile (fun c => !(c = ']')) with
    | ']' :: tail => some (trimLeftJs tail)
    | _ => none
  | _ => none

/-- Match a literal prefix and consume the trailing whitespace that the
regexes match with a final `\s*`. -/
def matchLit (lit l : List Char) : Option (List Char) :=
  if lit.isPrefixOf l then some (trimLeftJs (l.drop lit.length)) else none

/-- Match against `^\s*(?:\[[^\]]*\]\s*)?lit\s*`: the greedy optional
timestamp group is tried first, then the branch without it. -/
def matchTsLit (lit l : List Char) : Option (List Char) :=
  match dropBracket l with
  | some l2 =>
    match matchLit lit l2 with
    | some r => some r
    | none => matchLit lit (trimLeftJs l)
  | none => matchLit lit (trimLeftJs l)

/-- Case-insensitive literal prefix match (for the `i`-flagged `q:`/`a:`
regexes). -/
def matchLitCI (lit l : List Char) : Option (List Char) :=
  if (l.take lit.length).map jsLower = lit.map jsLower then
    some (trimLeftJs (l.drop lit.length))
  else none

/-- Case-insensitive variant of `matchTsLit`. -/
def matchTsLitCI (lit l : List Char) : Option (List Char) :=
  match dropBracket l with
  | some l2 =>
    match matchLitCI lit l2 with
    | some r => some r
    | none => matchLitCI lit (trimLeftJs l)
  | none => matchLitCI lit (trimLeftJs l)

/-- The generic patient prefix `^ts(?:המטופל|מטופל\/ת|מטופל):\s*`,
with the regex alternation order. -/
def matchGenericPatient (l : List Char) : Option (List Char) :=
  match matchTsLit ("המטופל:".data) l with
  | some r => some r
  | none =>
    match matchTsLit ("מטופל/ת:".data) l with
    | some r => some r
    | none => matchTsLit ("מטופל:".data) l

inductive Speaker where
  | patient : Speaker
  | therapist : Speaker
deriving DecidableEq, Repr

/-- The contribution a patient-prefixed line makes:
`line.replace(rx, "").trim()` is pushed only when non-empty. -/
def pushRemainder (r : List Char) : Option (List Char) :=
  if trimJs r = [] then none else some (trimJs r)

/-- One iteration of the `extractPatientOnlyByViewerRules` loop on a single
line: the ordered prefix tests of the source, producing the new
`speaker` state and the line's contribution to `out`. -/
def stepLine (name? : Option (List Char)) (speaker : Option Speaker) (line : List Char) :
    Option Speaker × Option (List Char) :=
  if line = [] then (speaker, none)
  else
    match name?.bind (fun nm => matchTsLit (nm ++ [':']) line) with
    | some r => (some .patient, pushRemainder r)
    | none =>
      if (matchTsLit ("המטפל:".data) line).isSome then (some .therapist, none)
      else
        match matchTsLitCI ("q:".data) line with
        | some r => (some .patient, pushRemainder r)
        | none =>
          if (matchTsLitCI ("a:".data) line).isSome then (some .therapist, none)
          else
            match matchGenericPatient line with
            | some r => (some .patient, pushRemainder r)
            | none =>
              match matchLit ("שאלה:".data) (trimLeftJs line) with
              | some r => (some .patient, pushRemainder r)
              | none =>
                if (matchLit ("תשובה:".data) (trimLeftJs line)).isSome then
                  (some .therapist, none)
                else if speaker = some Speaker.patient then (speaker, some line)
                else (speaker, none)

/-- The loop of `extractPatientOnlyByViewerRules`, collecting `out`. -/
def extractLines (name? : Option (List Char)) :
    Option Speaker → List (List Char) → List (List Char)
  | _, [] => []
  | sp, line :: rest =>
    match stepLine name? sp line with
    | (sp', some r) => r :: extractLines name? sp' rest
    | (sp', none) => extractLines name? sp' rest

/-- The name preparation of `buildSpeakerRegexes` and `main`:
`String(row.name).trim()`, empty meaning no name regex, lowercased into
the literal. -/
def mkPatientName (n : List Char) : Option (List Char) :=
  if trimJs n = [] then none else some ((trimJs n).map jsLower)

/-- `extractPatientOnlyByViewerRules` from `scripts/risk-scan.mjs`:
split into lines, run the speaker automaton, join the patient
contributions with single spaces, collapse whitespace and trim. -/
def extractPatientOnlyByViewerRules (textNormWithNL : List Char)
    (name? : Option (List Char)) : List Char :=
  trimJs (collapseRuns isJsWs (joinSp (extractLines name? none (splitOnNL textNormWithNL))))

/-! ### Claim C9: texts with no recognized prefix are dropped entirely -/
/-- A line matches some recognized prefix (subject or counterpart), in the
no-configured-subject-name situation where only the generic/label-based
prefixes apply. -/
def linePrefixMatch (line : List Char) : Prop :=
  (matchTsLit ("המטפל:".data) line).isSome = true ∨
  (matchTsLitCI ("q:".data) line).isSome = true ∨
  (matchTsLitCI ("a:".data) line).isSome = true ∨
  (matchGenericPatient line).isSome = true ∨
  (matchLit ("שאלה:".data) (trimLeftJs line)).isSome = true ∨
  (matchLit ("תשובה:".data) (trimLeftJs line)).isSome = true

instance (line : List Char) : Decidable (linePrefixMatch line) := by
  unfold linePrefixMatch
  infer_instance

/-! ### Substring search and global match enumeration -/
/-- Worker for `strFind`: scan the remaining text `l`, reporting the
absolute position `i` of the leftmost match. -/
def strFindAux (needle : List Char) : List Char → Nat → Option Nat
  | [], i => if needle.isPrefixOf [] then some i else none
  | c :: rest, i =>
    if needle.isPrefixOf (c :: rest) then some i else strFindAux needle rest (i + 1)

/-- JavaScript `indexOf` semantics restricted to positions at or after
`start` (also the leftmost-match semantics of `exec` on an escaped-literal
global regex whose `lastIndex` is `start`). -/
def strFind (needle hay : List Char) (start : Nat) : Option Nat :=
  if start ≤ hay.length then strFindAux needle (hay.drop start) start else none

/-- `needle` occurs in `hay` at position `j`. -/
def occursAt (needle hay : List Char) (j : Nat) : Prop :=
  needle.isPrefixOf (hay.drop j) = true ∧ j ≤ hay.length

instance (needle hay : List Char) (j : Nat) : Decidable (occursAt needle hay j) := by
  unfold occursAt
  infer_instance

/-- The `exec` loop of `scanIncremental`, over an abstract matcher `f`
standing for `re.exec` at a given `lastIndex`: collects matches, advances
`lastIndex` past each match, and bumps it by one on a zero-length match
(the explicit infinite-loop guard of the source).  Fuel-indexed; `none`
means the fuel ran out. -/
def execLoopO (f : Nat → Option (Nat × Nat)) : Nat → Nat → Option (List (Nat × Nat))
  | _, 0 => none
  | li, fuel + 1 =>
    match f li with
    | none => some []
    | some (i, len) =>
      (execLoopO f (if len = 0 then i + 1 else i + len) fuel).map
        (fun t => (i, len) :: t)

/-- The matcher `scanIncremental` uses for a literal (escaped) pattern:
global-regex `exec` is leftmost match at or after `lastIndex`. -/
def litOracle (needle hay : List Char) (li : Nat) : Option (Nat × Nat) :=
  (strFind needle hay li).map (fun i => (i, needle.length))

/-- All matches found by the `scanIncremental` exec loop on a literal
pattern. -/
def jsMatchAll (needle hay : List Char) : List (Nat × Nat) :=
  (execLoopO (litOracle needle hay) 0 (hay.length + 2)).getD []



/-! ### Snippets and the per-row scan pipelines -/
/-- `snippetAround` from the `risk_engine` edge function: a character
window of `windowN / 2` on each side, clamped to the text bounds. -/
def snippetAround (text : List Char) (startIdx endIdx windowN : Nat) : List Char :=
  let half := windowN / 2
  let lo := startIdx - half
  let hi := min text.length (endIdx + half)
  (text.drop lo).take (hi - lo)

/-- `buildSnippet` from `scripts/risk_scan_build_payload.mjs`: a character
window of `ctx` on each side clamped to the text bounds, with an ellipsis
marker on each side where text was clipped away. -/
def buildSnippet (text : List Char) (idx matchLen ctx : Nat) : List Char :=
  let start := idx - ctx
  let stop := min text.length (idx + matchLen + ctx)
  (if 0 < start then "…".data else []) ++
    ((text.drop start).take (stop - start)) ++
    (if stop < text.length then "…".data else [])

/-- A token of `snippetByWords`: the word and its character span. -/
structure Tok where
  w : List Char
  s : Nat
  e : Nat
deriving DecidableEq, Repr

/-- Worker for the `/\S+/g` tokenizer of `snippetByWords`: `cur` carries
the reversed characters of the token being read and its start index. -/
def tokensGo : List Char → Nat → Option (List Char × Nat) → List Tok
  | [], _, none => []
  | [], i, some (cur, st) => [⟨cur.reverse, st, i⟩]
  | c :: rest, i, none =>
    if isJsWs c then tokensGo rest (i + 1) none
    else tokensGo rest (i + 1) (some ([c], i))
  | c :: rest, i, some (cur, st) =>
    if isJsWs c then ⟨cur.reverse, st, i⟩ :: tokensGo rest (i + 1) none
    else tokensGo rest (i + 1) (some (c :: cur, st))

/-- The `/\S+/g` token list of `snippetByWords` with character spans. -/
def tokens (textNorm : List Char) : List Tok := tokensGo textNorm 0 none

/-- The token-window computation of `snippetByWords`: the two `while`
loops locating the token span covering the match, the end-of-list
clamping of `iStart`, the `iEnd <= iStart` adjustment, and the
`Math.max`/`Math.min` clamping of the word window. -/
def snippetTokenWindow (toks : List Tok) (matchStart matchEnd : Nat)
    (wordsBefore wordsAfter : Nat) : Nat × Nat :=
  let iStart := (toks.takeWhile (fun t => t.e ≤ matchStart)).length
  let iEnd := iStart + ((toks.drop iStart).takeWhile (fun t => t.s < matchEnd)).length
  let iStart2 := if toks.length ≤ iStart then toks.length - 1 else iStart
  let iEnd2 := if iEnd ≤ iStart2 then iStart2 + 1 else iEnd
  (iStart2 - wordsBefore, min toks.length (iEnd2 + wordsAfter))

/-- `snippetByWords` from `scripts/risk-scan.mjs`: locate the token span
covering the match, extend by `wordsBefore`/`wordsAfter` tokens on each
side, clamp to the token list, and join with single spaces. -/
def snippetByWords (textNorm : List Char) (matchStart matchLen : Nat)
    (wordsBefore wordsAfter : Nat) : List Char :=
  let toks := tokens textNorm
  if toks = [] then []
  else
    let w := snippetTokenWindow toks matchStart (matchStart + matchLen) wordsBefore wordsAfter
    joinSp (((toks.drop w.1).take (w.2 - w.1)).map (fun t => t.w))

/-- The per-pattern match step of `main` in `scripts/risk-scan.mjs`:
`patientText.indexOf(p.pattern_norm)`, a single leftmost occurrence. -/
def riskScanMatches (p patientText : List Char) : List Nat :=
  match strFind p patientText 0 with
  | some idx => [idx]
  | none => []

/-- The per-row scan of `main` in `scripts/risk-scan.mjs`: skip rows whose
patient-only text is empty, then for each pattern take the single
`indexOf` match and build the 2+2-word snippet. -/
def riskScanRowItems (pats : List (List Char)) (patientText : List Char) :
    List (Nat × List Char) :=
  if patientText = [] then []
  else
    pats.filterMap (fun p =>
      match strFind p patientText 0 with
      | some idx => some (idx, snippetByWords patientText idx p.length 2 2)
      | none => none)

/-- The per-row, per-pattern scan of `scanIncremental` in the
`risk_engine` edge function, for a literal (escaped) pattern: normalize
the whole raw text (no speaker extraction), enumerate all matches with
the global exec loop, and take a `snippetAround` window for each. -/
def scanIncrementalRowItems (p raw : List Char) (window : Nat) : List (List Char) :=
  (jsMatchAll p (normalizeText raw)).map
    (fun m => snippetAround (normalizeText raw) m.1 (m.1 + m.2) window)



/-- A line that the viewer rules attribute to the counterpart
(therapist): it is nonempty, fails the subject-name test, and the first
prefix test it passes is a therapist one (`המטפל:`, `a:` or `תשובה:`). -/
def therLineB (name? : Option (List Char)) (line : List Char) : Bool :=
  !line.isEmpty &&
  (name?.bind (fun nm => matchTsLit (nm ++ [':']) line)).isNone &&
  ((matchTsLit ("המטפל:".data) line).isSome ||
   ((matchTsLitCI ("q:".data) line).isNone &&
    ((matchTsLitCI ("a:".data) line).isSome ||
     ((matchGenericPatient line).isNone &&
      (matchLit ("שאלה:".data) (trimLeftJs line)).isNone &&
      (matchLit ("תשובה:".data) (trimLeftJs line)).isSome))))

/-- A nonempty line with no recognized prefix at all (it is attributed to
the previous speaker). -/
def noPrefixLineB (name? : Option (List Char)) (line : List Char) : Bool :=
  !line.isEmpty &&
  (name?.bind (fun nm => matchTsLit (nm ++ [':']) line)).isNone &&
  (matchTsLit ("המטפל:".data) line).isNone &&
  (matchTsLitCI ("q:".data) line).isNone &&
  (matchTsLitCI ("a:".data) line).isNone &&
  (matchGenericPatient line).isNone &&
  (matchLit ("שאלה:".data) (trimLeftJs line)).isNone &&
  (matchLit ("תשובה:".data) (trimLeftJs line)).isNone

/-- Two line lists agree except in counterpart-authored material: lines
are pairwise equal, or both therapist-prefixed, or both
unprefixed/empty while the running speaker state is the counterpart. -/
inductive EquivFrom (name? : Option (List Char)) :
    Option Speaker → List (List Char) → List (List Char) → Prop where
  | nil (sp : Option Speaker) : EquivFrom name? sp [] []
  | consEq (sp : Option Speaker) (line : List Char) (ls₁ ls₂ : List (List Char)) :
      EquivFrom name? (stepLine name? sp line).1 ls₁ ls₂ →
      EquivFrom name? sp (line :: ls₁) (line :: ls₂)
  | consTher (sp : Option Speaker) (l₁ l₂ : List Char) (ls₁ ls₂ : List (List Char)) :
      therLineB name? l₁ = true → therLineB name? l₂ = true →
      EquivFrom name? (some .therapist) ls₁ ls₂ →
      EquivFrom name? sp (l₁ :: ls₁) (l₂ :: ls₂)
  | consCont (l₁ l₂ : List Char) (ls₁ ls₂ : List (List Char)) :
      (l₁.isEmpty || noPrefixLineB name? l₁) = true →
      (l₂.isEmpty || noPrefixLineB name? l₂) = true →
      EquivFrom name? (some .therapist) ls₁ ls₂ →
      EquivFrom name? (some .therapist) (l₁ :: ls₁) (l₂ :: ls₂)

/-- Insertion into an ascending list (used to model `order("time")`). -/
def sortedInsert (a : Int) : List Int → List Int
  | [] => [a]
  | b :: rest => if a ≤ b then a :: b :: rest else b :: sortedInsert a rest

/-- Ascending insertion sort (the `order("time", ascending)` clause). -/
def sortAsc : List Int → List Int
  | [] => []
  | a :: rest => sortedInsert a (sortAsc rest)

/-- The row fetch of `scanIncremental` (`fetchUsersBatch` in the
`risk_engine` edge function): rows with `time` strictly greater than
`afterTime`, ordered by `time` ascending, limited to `limit`.  The
PostgREST `gt`/`order`/`limit` combinators are modelled by
filter/sort/take over the table's ordering keys. -/
def fetchUsersBatch (table : List Int) (afterTime : Int) (limit : Nat) : List Int :=
  (sortAsc (table.filter (fun t => afterTime < t))).take limit

/-- The batch-limit clamp of `scanIncremental`:
`Math.max(1, Math.min(1000, limit))`. -/
def scanBatchLimit (limit : Nat) : Nat := max 1 (min 1000 limit)

/-- The watermark fold of `scanIncremental`:
`watermark = Math.max(watermark, Number(row.time))` over the batch. -/
def scanWatermark (w0 : Int) (batch : List Int) : Int :=
  batch.foldl (fun w t => max w t) w0

/-- The watermark behaviour of one `scanIncremental` pass: fetch one batch
past the stored watermark; on an empty batch return the stored value and
skip `saveWatermark`; otherwise fold the row keys into the watermark and
save it.  Returns (watermark_end, saved value if any). -/
def scanIncrementalWatermark (table : List Int) (w0 : Int) (limit : Nat) :
    Int × Option Int :=
  let batch := fetchUsersBatch table w0 (scanBatchLimit limit)
  if batch = [] then (w0, none)
  else (scanWatermark w0 batch, some (scanWatermark w0 batch))

/-- Job status in `process_queue`. -/
inductive QStatus where
  | NEW : QStatus
  | PROCESSING : QStatus
  | DONE : QStatus
  | ERROR : QStatus
deriving DecidableEq, Repr

/-- A `process_queue` row: id, the referenced `users_total.id`, status and
the recorded error message. -/
structure QJob where
  id : Nat
  users_total_id : Nat
  status : QStatus
  last_error : Option (List Char)
deriving DecidableEq, Repr

/-- Modelled from the spec: `fn_process_queue_claim_one`, the claim RPC
called by `claimOne` in `scripts/process_queue_worker.mjs`.  Its SQL body
is not among the repository sources; per the spec it atomically selects
one NEW job (ties broken by creation order — the list order), flips it to
PROCESSING and returns its identifying fields, or returns an empty
result.  Being one atomic transaction, a concurrent execution is a
sequence of these steps. -/
def claimOne : List QJob → Option QJob × List QJob
  | [] => (none, [])
  | j :: rest =>
    if j.status = QStatus.NEW then
      (some { j with status := QStatus.PROCESSING },
       { j with status := QStatus.PROCESSING } :: rest)
    else
      let r := claimOne rest
      (r.1, j :: r.2)

/-- Modelled from the spec: `fn_process_queue_finish`, the finish RPC
called by `finishQueue` in `scripts/process_queue_worker.mjs`: it
transitions a PROCESSING job with the given id to a terminal state and
records the (already truncated) error message; a job not in PROCESSING is
left unchanged (no-op-safe). -/
def finishQueue (q : List QJob) (jobId : Nat) (st : QStatus)
    (msg : Option (List Char)) : List QJob :=
  q.map (fun j =>
    if j.id = jobId ∧ j.status = QStatus.PROCESSING then
      { j with status := st, last_error := msg }
    else j)

/-- `N` concurrent callers of the claim RPC.  The claim is a single atomic
transaction, so any interleaving of `N` concurrent calls is a sequence of
`N` atomic `claimOne` steps. -/
def runClaims : Nat → List QJob → List (Option QJob) × List QJob
  | 0, q => ([], q)
  | n + 1, q =>
    let r := claimOne q
    let rs := runClaims n r.2
    (r.1 :: rs.1, rs.2)

/-- The number of NEW jobs in the queue. -/
def countNEW (q : List QJob) : Nat :=
  (q.filter (fun j => j.status = QStatus.NEW)).length

/-- The number of DONE jobs in the queue. -/
def countDONE (q : List QJob) : Nat :=
  (q.filter (fun j => j.status = QStatus.DONE)).length

/-- The driver loop of `main` in `scripts/process_queue_worker.mjs`: up to
`MAX_JOBS_PER_RUN` (the fuel) iterations of claim, process, finish.  A
falsy job id (`!job.id`) breaks the loop; a processing exception is
caught, recorded as `finish(id, ERROR, message.slice(0, 2000))`, not
counted, and the loop continues; a success records `finish(id, DONE)` and
increments `processedCount`.  The pushover-workflow trigger touches
neither the queue nor the count (its own errors are caught inside) and is
omitted. -/
def mainLoop (outcome : Nat → Except (List Char) Unit) :
    Nat → List QJob → Nat → List QJob × Nat
  | 0, q, cnt => (q, cnt)
  | fuel + 1, q, cnt =>
    match claimOne q with
    | (none, q1) => (q1, cnt)
    | (some j, q1) =>
      if j.id = 0 then (q1, cnt)
      else
        match outcome j.users_total_id with
        | Except.ok _ =>
          mainLoop outcome fuel (finishQueue q1 j.id QStatus.DONE none) (cnt + 1)
        | Except.error msg =>
          mainLoop outcome fuel
            (finishQueue q1 j.id QStatus.ERROR (some (msg.take 2000))) cnt

/-- A `risk_reviews` row, restricted to the fields relevant to the dedup
behaviour: the dedup key `(time_key, phone, snippet_hash)`, the payload, and
the reviewer-decision fields (`status`, `reviewed_at`, `reviewed_by`). -/
structure RRow where
  time_key : Int
  phone : List Char
  snippet_hash : List Char
  snippet_text : List Char
  pattern_key : List Char
  status : List Char
  reviewed_at : Option (List Char)
  reviewed_by : Option (List Char)
deriving DecidableEq, Repr

/-- The dedup key of the unique index
`risk_reviews_time_phone_snippet_hash_uq` on `(time_key, phone, snippet_hash)`
created by `supabase/migrations/20251215_risk_split.sql`. -/
def keyOf (r : RRow) : Int × List Char × List Char :=
  (r.time_key, r.phone, r.snippet_hash)

/-- Modelled from the spec: the store effect of `upsertRiskReview` in
`scripts/risk-scan.mjs` — a single PostgREST INSERT with
`on_conflict=time_key,phone,snippet_hash` and
`Prefer: resolution=ignore-duplicates`, resolved by the store against the
unique index of the migration: the row is appended when its key is absent and
the conflicting row is skipped otherwise; the statement never raises a
duplicate-key error and never touches an existing row. -/
def upsertRiskReview (store : List RRow) (it : RRow) : Except Unit (List RRow) :=
  if store.any (fun r => decide (keyOf r = keyOf it)) then Except.ok store
  else Except.ok (store ++ [it])

/-- `existsRiskRow` of `src/unnamed/part_003`: a SELECT probing the store for
the dedup key. -/
def existsRiskRow (store : List RRow) (k : Int × List Char × List Char) : Bool :=
  store.any (fun r => decide (keyOf r = k))

/-- Modelled from the spec: the store effect of `insertRiskRow` in
`src/unnamed/part_003` — a plain INSERT with no conflict clause against the
table carrying the migration's unique index: it appends the row when the key
is absent and raises a duplicate-key error otherwise (which `insertRiskRow`
re-throws). -/
def insertRiskRow (store : List RRow) (it : RRow) : Except Unit (List RRow) :=
  if store.any (fun r => decide (keyOf r = keyOf it)) then Except.error ()
  else Except.ok (store ++ [it])

/-- The per-hit write step of the scan loop of `src/unnamed/part_003`:
`const already = await existsRiskRow(...); if (already) continue;` followed by
`await insertRiskRow(payload)` — an application-side check-then-act. -/
def part003Write (store : List RRow) (it : RRow) : Except Unit (List RRow) :=
  if existsRiskRow store (keyOf it) then Except.ok store
  else insertRiskRow store it

/-- Two `part003Write` callers racing on the same dedup key, in the
interleaving where both run their `existsRiskRow` probe against the starting
store before either INSERT lands: A probes, B probes, A inserts, B inserts. -/
def racedPart003 (store : List RRow) (itA itB : RRow) : Except Unit (List RRow) :=
  let checkA := existsRiskRow store (keyOf itA)
  let checkB := existsRiskRow store (keyOf itB)
  match (if checkA then Except.ok store else insertRiskRow store itA : Except Unit (List RRow)) with
  | Except.error e => Except.error e
  | Except.ok s1 => if checkB then Except.ok s1 else insertRiskRow s1 itB

/-- Two `upsertRiskReview` callers on the same store: each call is one atomic
conflict-aware INSERT statement, so any interleaving of the two calls is a
sequence of the two statements. -/
def racedUpsert (store : List RRow) (itA itB : RRow) : Except Unit (List RRow) :=
  match upsertRiskReview store itA with
  | Except.error e => Except.error e
  | Except.ok s1 => upsertRiskReview s1 itB

/-! ### Theorems -/

/-! ### Character-level facts -/
theorem toNat_ofNat_lt (n : Nat) (h : n < 0xd800) : (Char.ofNat n).toNat = n := by
  have hv : Nat.isValidChar n := Or.inl h
  simp only [Char.ofNat, hv, dite_true, Char.toNat, Char.ofNatAux]
  rfl

theorem jsLower_toNat (c : Char) (h1 : 65 ≤ c.toNat) (h2 : c.toNat ≤ 90) :
    (jsLower c).toNat = c.toNat + 32 := by
  simp only [jsLower, h1, h2, and_self, if_true]
  exact toNat_ofNat_lt _ (by omega)

theorem jsLower_eq_self_of_not_upper (c : Char) (h : ¬(65 ≤ c.toNat ∧ c.toNat ≤ 90)) :
    jsLower c = c := by
  simp [jsLower, h]

theorem jsLower_idem (c : Char) : jsLower (jsLower c) = jsLower c := by
  by_cases h : 65 ≤ c.toNat ∧ c.toNat ≤ 90
  · have ht : (jsLower c).toNat = c.toNat + 32 := jsLower_toNat c h.1 h.2
    have hn : ¬(65 ≤ (jsLower c).toNat ∧ (jsLower c).toNat ≤ 90) := by omega
    rw [jsLower_eq_self_of_not_upper _ hn]
  · rw [jsLower_eq_self_of_not_upper c h]
    exact jsLower_eq_self_of_not_upper c h

theorem isHebDia_iff (c : Char) : isHebDia c = true ↔
    ((1425 ≤ c.toNat ∧ c.toNat ≤ 1469) ∨ c.toNat = 1471 ∨
     (1473 ≤ c.toNat ∧ c.toNat ≤ 1474) ∨ (1476 ≤ c.toNat ∧ c.toNat ≤ 1479)) := by
  simp [isHebDia]

theorem isHebDia_jsLower (c : Char) : isHebDia (jsLower c) = isHebDia c := by
  by_cases h : 65 ≤ c.toNat ∧ c.toNat ≤ 90
  · have ht : (jsLower c).toNat = c.toNat + 32 := jsLower_toNat c h.1 h.2
    have h1 : isHebDia (jsLower c) = false := by
      rw [← Bool.not_eq_true, isHebDia_iff, ht]
      omega
    have h2 : isHebDia c = false := by
      rw [← Bool.not_eq_true, isHebDia_iff]
      omega
    rw [h1, h2]
  · rw [jsLower_eq_self_of_not_upper c h]

theorem isJsWs_space : isJsWs ' ' = true := by decide

theorem isJsWs_nl : isJsWs '\n' = true := by decide

theorem jsLower_space : jsLower ' ' = ' ' := by decide

theorem jsLower_nl : jsLower '\n' = '\n' := by decide

/-! ### Facts about `trimLeftJs`, `trimJs` -/
theorem trimLeftJs_head_not_ws (l : List Char) (c : Char)
    (h : (trimLeftJs l).head? = some c) : isJsWs c = false := by
  induction l with
  | nil => simp [trimLeftJs] at h
  | cons a rest ih =>
    rw [trimLeftJs, List.dropWhile_cons] at h
    by_cases ha : isJsWs a = true
    · rw [if_pos ha] at h
      exact ih h
    · rw [if_neg ha] at h
      simp at h
      rw [← h]
      exact Bool.eq_false_iff.mpr (fun hc => ha hc)

theorem trimLeftJs_eq_self (l : List Char) (h : ∀ c ∈ l.head?, isJsWs c = false) :
    trimLeftJs l = l := by
  cases l with
  | nil => rfl
  | cons a rest =>
    have ha : isJsWs a = false := h a rfl
    rw [trimLeftJs, List.dropWhile_cons, ha]
    simp

theorem trimJs_sublist (l : List Char) : (trimJs l).Sublist l := by
  have h1 : (trimLeftJs l.reverse).Sublist l.reverse := List.dropWhile_sublist _
  have h2 : ((trimLeftJs l.reverse).reverse).Sublist l.reverse.reverse := h1.reverse
  rw [List.reverse_reverse] at h2
  exact (List.dropWhile_sublist _).trans h2

theorem mem_trimJs (l : List Char) (c : Char) (h : c ∈ trimJs l) : c ∈ l :=
  (trimJs_sublist l).mem h

theorem trimJs_head_not_ws (l : List Char) (c : Char)
    (h : (trimJs l).head? = some c) : isJsWs c = false :=
  trimLeftJs_head_not_ws _ c h

theorem getLast_not_ws_of_trimLeft_rev (l : List Char) (c : Char)
    (h : ((trimLeftJs l.reverse).reverse).getLast? = some c) : isJsWs c = false := by
  rw [List.getLast?_reverse] at h
  exact trimLeftJs_head_not_ws _ c h

theorem trimJs_getLast_not_ws (l : List Char) (c : Char)
    (h : (trimJs l).getLast? = some c) : isJsWs c = false := by
  rw [trimJs] at h
  set m := (trimLeftJs l.reverse).reverse with hm
  rcases List.suffix_iff_eq_append.mp (List.dropWhile_suffix (l := m) isJsWs) with happ
  by_cases hnil : trimLeftJs m = []
  · rw [hnil] at h
    simp at h
  · have : m.getLast? = (trimLeftJs m).getLast? := by
      conv_lhs => rw [← happ]
      exact List.getLast?_append_of_ne_nil _ hnil
    apply getLast_not_ws_of_trimLeft_rev l c
    rw [hm] at this
    rw [← hm, this]
    exact h

theorem trimJs_eq_self (l : List Char)
    (hh : ∀ c ∈ l.head?, isJsWs c = false) (hl : ∀ c ∈ l.getLast?, isJsWs c = false) :
    trimJs l = l := by
  rw [trimJs]
  have h1 : trimLeftJs l.reverse = l.reverse := by
    apply trimLeftJs_eq_self
    intro c hc
    rw [List.head?_reverse] at hc
    exact hl c hc
  rw [h1, List.reverse_reverse]
  exact trimLeftJs_eq_self l hh

theorem chain'_trimLeftJs {R : Char → Char → Prop} (l : List Char)
    (h : List.Chain' R l) : List.Chain' R (trimLeftJs l) :=
  h.suffix (List.dropWhile_suffix _)

theorem chain'_trimJs {R : Char → Char → Prop} (l : List Char)
    (h : List.Chain' R l) : List.Chain' R (trimJs l) := by
  rw [trimJs]
  apply chain'_trimLeftJs
  rw [List.chain'_reverse]
  apply chain'_trimLeftJs
  rw [← List.chain'_reverse, List.reverse_reverse]
  exact h

/-! ### Facts about `dropWhile` and `collapseRuns` -/
theorem head?_dropWhile {α : Type} (p : α → Bool) (l : List α) (c : α)
    (h : (l.dropWhile p).head? = some c) : p c = false := by
  induction l with
  | nil => simp at h
  | cons a rest ih =>
    rw [List.dropWhile_cons] at h
    by_cases ha : p a = true
    · rw [if_pos ha] at h
      exact ih h
    · rw [if_neg ha] at h
      simp at h
      rw [← h]
      exact Bool.eq_false_iff.mpr (fun hc => ha hc)

theorem dropWhile_eq_self_of_head {α : Type} (p : α → Bool) (l : List α)
    (h : ∀ c ∈ l.head?, p c = false) : l.dropWhile p = l := by
  cases l with
  | nil => rfl
  | cons a rest =>
    have ha : p a = false := h a rfl
    rw [List.dropWhile_cons, ha]
    simp

theorem mem_collapseAux (p : Char → Bool) (l : List Char) :
    ∀ (b : Bool), ∀ c ∈ collapseAux p b l, (c ∈ l ∧ p c = false) ∨ c = ' ' := by
  induction l with
  | nil =>
    intro b c hc
    simp [collapseAux] at hc
  | cons a rest ih =>
    intro b c hc
    rw [collapseAux] at hc
    by_cases ha : p a = true
    · rw [if_pos ha] at hc
      cases b with
      | true =>
        rcases ih true c hc with ⟨hm, hp⟩ | hs
        · exact Or.inl ⟨List.mem_cons_of_mem a hm, hp⟩
        · exact Or.inr hs
      | false =>
        rcases List.mem_cons.mp hc with h1 | h1
        · exact Or.inr h1
        · rcases ih true c h1 with ⟨hm, hp⟩ | hs
          · exact Or.inl ⟨List.mem_cons_of_mem a hm, hp⟩
          · exact Or.inr hs
    · rw [if_neg ha] at hc
      rcases List.mem_cons.mp hc with h1 | h1
      · exact Or.inl ⟨h1 ▸ List.mem_cons_self a rest, h1 ▸ Bool.eq_false_iff.mpr ha⟩
      · rcases ih false c h1 with ⟨hm, hp⟩ | hs
        · exact Or.inl ⟨List.mem_cons_of_mem a hm, hp⟩
        · exact Or.inr hs

theorem mem_collapseRuns (p : Char → Bool) (l : List Char) (c : Char)
    (h : c ∈ collapseRuns p l) : (c ∈ l ∧ p c = false) ∨ c = ' ' :=
  mem_collapseAux p l false c h

theorem ws_mem_collapseRuns (p : Char → Bool) (l : List Char) (c : Char)
    (h : c ∈ collapseRuns p l) (hp : p c = true) : c = ' ' := by
  rcases mem_collapseRuns p l c h with ⟨_, hf⟩ | hs
  · rw [hp] at hf
    exact absurd hf (by simp)
  · exact hs

theorem not_mem_collapseRuns (p : Char → Bool) (l : List Char) (c : Char)
    (hp : p c = true) (hne : c ≠ ' ') : c ∉ collapseRuns p l := by
  intro h
  exact hne (ws_mem_collapseRuns p l c h hp)

theorem head?_collapseRuns_of_not (p : Char → Bool) (l : List Char)
    (h : ∀ c ∈ l.head?, p c = false) : (collapseRuns p l).head? = l.head? := by
  cases l with
  | nil => rfl
  | cons a rest =>
    have ha : p a = false := h a rfl
    rw [collapseRuns, collapseAux, if_neg (by simp [ha])]
    rfl

theorem head?_collapseAux_true (p : Char → Bool) (l : List Char) (y : Char)
    (h : (collapseAux p true l).head? = some y) : p y = false := by
  induction l with
  | nil => simp [collapseAux] at h
  | cons a rest ih =>
    rw [collapseAux] at h
    by_cases ha : p a = true
    · rw [if_pos ha, if_pos rfl] at h
      exact ih h
    · rw [if_neg ha] at h
      simp at h
      rw [← h]
      exact Bool.eq_false_iff.mpr (fun hc => ha hc)

theorem chain'_collapseAux (p : Char → Bool) (l : List Char) :
    ∀ b, List.Chain' (fun a c => ¬(p a = true ∧ p c = true)) (collapseAux p b l) := by
  induction l with
  | nil =>
    intro b
    simp [collapseAux]
  | cons a rest ih =>
    intro b
    rw [collapseAux]
    by_cases ha : p a = true
    · rw [if_pos ha]
      cases b with
      | true => exact ih true
      | false =>
        rw [if_neg (by simp)]
        rw [List.chain'_cons']
        refine ⟨?_, ih true⟩
        intro y hy
        have := head?_collapseAux_true p rest y hy
        simp [this]
    · rw [if_neg ha]
      rw [List.chain'_cons']
      refine ⟨?_, ih false⟩
      intro y _
      intro hc
      exact ha hc.1

theorem chain'_collapseRuns (p : Char → Bool) (l : List Char) :
    List.Chain' (fun a b => ¬(p a = true ∧ p b = true)) (collapseRuns p l) :=
  chain'_collapseAux p l false

theorem collapseAux_true_eq_false (p : Char → Bool) (l : List Char)
    (h : ∀ c ∈ l.head?, p c = false) : collapseAux p true l = collapseAux p false l := by
  cases l with
  | nil => rfl
  | cons a rest =>
    have ha : p a = false := h a rfl
    rw [collapseAux, collapseAux, if_neg (by simp [ha]), if_neg (by simp [ha])]

theorem collapseRuns_eq_self (p : Char → Bool) (l : List Char)
    (hws : ∀ c ∈ l, p c = true → c = ' ')
    (hch : List.Chain' (fun a b => ¬(p a = true ∧ p b = true)) l) :
    collapseRuns p l = l := by
  rw [collapseRuns]
  induction l with
  | nil => rfl
  | cons a rest ih =>
    rw [collapseAux]
    by_cases ha : p a = true
    · have hsp : a = ' ' := hws a (List.mem_cons_self a rest) ha
      have hhd : ∀ c ∈ rest.head?, p c = false := by
        intro c hc
        have := (List.chain'_cons'.mp hch).1 c hc
        by_contra hb
        exact this ⟨ha, by simpa using hb⟩
      rw [if_pos ha, if_neg (by simp), collapseAux_true_eq_false p rest hhd,
        ih (fun c hc hp => hws c (List.mem_cons_of_mem a hc) hp) (List.chain'_cons'.mp hch).2,
        hsp]
    · rw [if_neg ha,
        ih (fun c hc hp => hws c (List.mem_cons_of_mem a hc) hp) (List.chain'_cons'.mp hch).2]

/-! ### Facts about `splitOnNL`, `joinNL`, `convCR` -/
theorem splitOnNL_ne_nil (l : List Char) : splitOnNL l ≠ [] := by
  cases l with
  | nil => simp [splitOnNL]
  | cons c rest =>
    rw [splitOnNL]
    by_cases hc : c = '\n' <;> simp [hc]

theorem joinNL_cons_cons (l x : List Char) (xs : List (List Char)) :
    joinNL (l :: x :: xs) = l ++ '\n' :: joinNL (x :: xs) := rfl

theorem joinNL_splitOnNL (l : List Char) : joinNL (splitOnNL l) = l := by
  induction l with
  | nil => rfl
  | cons c rest ih =>
    rcases h : splitOnNL rest with _ | ⟨a, as⟩
    · exact absurd h (splitOnNL_ne_nil rest)
    · rw [h] at ih
      by_cases hc : c = '\n'
      · rw [splitOnNL, if_pos hc, h, joinNL_cons_cons, List.nil_append, ih, hc]
      · rw [splitOnNL, if_neg hc, h]
        simp only [List.headI, List.tail_cons]
        cases as with
        | nil =>
          simp only [joinNL] at ih ⊢
          rw [ih]
        | cons b bs =>
          rw [joinNL_cons_cons, List.cons_append, ← joinNL_cons_cons, ih]

theorem mem_splitOnNL_no_nl (l : List Char) : ∀ l' ∈ splitOnNL l, '\n' ∉ l' := by
  induction l with
  | nil =>
    intro l' h
    simp [splitOnNL] at h
    simp [h]
  | cons c rest ih =>
    intro l' h
    rcases hs : splitOnNL rest with _ | ⟨a, as⟩
    · exact absurd hs (splitOnNL_ne_nil rest)
    · rw [hs] at ih
      by_cases hc : c = '\n'
      · rw [splitOnNL, if_pos hc, hs] at h
        rcases List.mem_cons.mp h with h1 | h1
        · simp [h1]
        · exact ih l' h1
      · rw [splitOnNL, if_neg hc, hs] at h
        simp only [List.headI, List.tail_cons] at h
        rcases List.mem_cons.mp h with h1 | h1
        · intro hm
          rw [h1] at hm
          rcases List.mem_cons.mp hm with h2 | h2
          · exact hc h2.symm
          · exact ih a (List.mem_cons_self a as) h2
        · exact ih l' (List.mem_cons_of_mem a h1)

theorem mem_of_mem_splitOnNL (l : List Char) :
    ∀ l' ∈ splitOnNL l, ∀ c ∈ l', c ∈ l := by
  induction l with
  | nil =>
    intro l' h c hc
    simp [splitOnNL] at h
    rw [h] at hc
    simp at hc
  | cons a rest ih =>
    intro l' h c hc
    rcases hs : splitOnNL rest with _ | ⟨b, bs⟩
    · exact absurd hs (splitOnNL_ne_nil rest)
    · rw [hs] at ih
      by_cases ha : a = '\n'
      · rw [splitOnNL, if_pos ha, hs] at h
        rcases List.mem_cons.mp h with h1 | h1
        · rw [h1] at hc
          simp at hc
        · exact List.mem_cons_of_mem a (ih l' h1 c hc)
      · rw [splitOnNL, if_neg ha, hs] at h
        simp only [List.headI, List.tail_cons] at h
        rcases List.mem_cons.mp h with h1 | h1
        · rw [h1] at hc
          rcases List.mem_cons.mp hc with h2 | h2
          · rw [h2]
            exact List.mem_cons_self a rest
          · exact List.mem_cons_of_mem a (ih b (List.mem_cons_self b bs) c h2)
        · exact List.mem_cons_of_mem a (ih l' (List.mem_cons_of_mem b h1) c hc)

theorem splitOnNL_of_no_nl (l : List Char) (h : '\n' ∉ l) : splitOnNL l = [l] := by
  induction l with
  | nil => rfl
  | cons c rest ih =>
    have hc : c ≠ '\n' := fun hx => h (hx ▸ List.mem_cons_self c rest)
    have hr : '\n' ∉ rest := fun hx => h (List.mem_cons_of_mem c hx)
    rw [splitOnNL, if_neg hc, ih hr]
    simp [List.headI]

theorem splitOnNL_append_nl (l rest : List Char) (h : '\n' ∉ l) :
    splitOnNL (l ++ '\n' :: rest) = l :: splitOnNL rest := by
  induction l with
  | nil =>
    rw [List.nil_append, splitOnNL, if_pos rfl]
  | cons c cl ih =>
    have hc : c ≠ '\n' := fun hx => h (hx ▸ List.mem_cons_self c cl)
    have hl : '\n' ∉ cl := fun hx => h (List.mem_cons_of_mem c hx)
    rw [List.cons_append, splitOnNL, if_neg hc, ih hl]
    simp [List.headI]

theorem splitOnNL_joinNL (ls : List (List Char)) (hne : ls ≠ [])
    (h : ∀ l ∈ ls, '\n' ∉ l) : splitOnNL (joinNL ls) = ls := by
  induction ls with
  | nil => exact absurd rfl hne
  | cons l ls ih =>
    cases ls with
    | nil =>
      show splitOnNL (joinNL [l]) = [l]
      rw [joinNL]
      exact splitOnNL_of_no_nl l (h l (List.mem_cons_self l []))
    | cons x xs =>
      rw [joinNL_cons_cons, splitOnNL_append_nl _ _ (h l (List.mem_cons_self l _)),
        ih (by simp) (fun a ha => h a (List.mem_cons_of_mem l ha))]

theorem mem_joinNL (ls : List (List Char)) (c : Char)
    (h : c ∈ joinNL ls) : (∃ l ∈ ls, c ∈ l) ∨ c = '\n' := by
  induction ls with
  | nil => simp [joinNL] at h
  | cons l ls ih =>
    cases ls with
    | nil =>
      rw [joinNL] at h
      exact Or.inl ⟨l, List.mem_cons_self l [], h⟩
    | cons x xs =>
      rw [joinNL_cons_cons] at h
      rcases List.mem_append.mp h with h1 | h1
      · exact Or.inl ⟨l, List.mem_cons_self l _, h1⟩
      · rcases List.mem_cons.mp h1 with h2 | h2
        · exact Or.inr h2
        · rcases ih h2 with ⟨a, ha, hc⟩ | h3
          · exact Or.inl ⟨a, List.mem_cons_of_mem l ha, hc⟩
          · exact Or.inr h3

theorem head?_joinNL (ls : List (List Char)) (c : Char)
    (h : (joinNL ls).head? = some c) : c = '\n' ∨ ∃ l ∈ ls, l.head? = some c := by
  induction ls with
  | nil => simp [joinNL] at h
  | cons l ls ih =>
    cases ls with
    | nil =>
      rw [joinNL] at h
      exact Or.inr ⟨l, List.mem_cons_self l [], h⟩
    | cons x xs =>
      rw [joinNL_cons_cons] at h
      cases l with
      | nil =>
        rw [List.nil_append] at h
        simp at h
        exact Or.inl h.symm
      | cons a al =>
        rw [List.cons_append] at h
        simp at h
        exact Or.inr ⟨a :: al, List.mem_cons_self _ _, by simp [h]⟩

theorem getLast?_joinNL (ls : List (List Char)) (c : Char)
    (h : (joinNL ls).getLast? = some c) : c = '\n' ∨ ∃ l ∈ ls, l.getLast? = some c := by
  induction ls with
  | nil => simp [joinNL] at h
  | cons l ls ih =>
    cases ls with
    | nil =>
      rw [joinNL] at h
      exact Or.inr ⟨l, List.mem_cons_self l [], h⟩
    | cons x xs =>
      rw [joinNL_cons_cons, List.getLast?_append_of_ne_nil _ (by simp)] at h
      rcases hm : joinNL (x :: xs) with _ | ⟨b, bs⟩
      · rw [hm] at h
        simp at h
        exact Or.inl h.symm
      · rw [hm, List.getLast?_cons_cons] at h
        rw [← hm] at h
        rcases ih h with h1 | ⟨a, ha, hl⟩
        · exact Or.inl h1
        · exact Or.inr ⟨a, List.mem_cons_of_mem l ha, hl⟩

theorem convCR_two (c d : Char) (rest : List Char) :
    convCR (c :: d :: rest) =
      if c = '\r' then
        if d = '\n' then '\n' :: convCR rest
        else '\n' :: convCR (d :: rest)
      else c :: convCR (d :: rest) := by
  rw [convCR]

theorem convCR_one (c : Char) : convCR [c] = if c = '\r' then ['\n'] else [c] := by
  rw [convCR]

theorem convCR_crlf (rest : List Char) :
    convCR ('\r' :: '\n' :: rest) = '\n' :: convCR rest := by
  rw [convCR_two]
  simp

theorem convCR_cr (d : Char) (rest : List Char) (hd : d ≠ '\n') :
    convCR ('\r' :: d :: rest) = '\n' :: convCR (d :: rest) := by
  rw [convCR_two]
  simp [hd]

theorem convCR_other (c d : Char) (rest : List Char) (hc : c ≠ '\r') :
    convCR (c :: d :: rest) = c :: convCR (d :: rest) := by
  rw [convCR_two]
  simp [hc]

theorem mem_convCR (l : List Char) : ∀ c ∈ convCR l, c ∈ l ∨ c = '\n' := by
  induction l using convCR.induct with
  | case1 =>
    intro c hc
    simp [convCR] at hc
  | case2 =>
    intro c hc
    rw [convCR_one] at hc
    simp at hc
    exact Or.inr hc
  | case3 a ha =>
    intro c hc
    rw [convCR_one, if_neg ha] at hc
    simp at hc
    exact Or.inl (by simp [hc])
  | case4 rest ih =>
    intro c hc
    rw [convCR_crlf] at hc
    rcases List.mem_cons.mp hc with h1 | h1
    · exact Or.inr h1
    · rcases ih c h1 with h2 | h2
      · exact Or.inl (List.mem_cons_of_mem _ (List.mem_cons_of_mem _ h2))
      · exact Or.inr h2
  | case5 d rest hd ih =>
    intro c hc
    rw [convCR_cr d rest hd] at hc
    rcases List.mem_cons.mp hc with h1 | h1
    · exact Or.inr h1
    · rcases ih c h1 with h2 | h2
      · exact Or.inl (List.mem_cons_of_mem _ h2)
      · exact Or.inr h2
  | case6 a d rest ha ih =>
    intro c hc
    rw [convCR_other a d rest ha] at hc
    rcases List.mem_cons.mp hc with h1 | h1
    · exact Or.inl (h1 ▸ List.mem_cons_self a _)
    · rcases ih c h1 with h2 | h2
      · exact Or.inl (List.mem_cons_of_mem _ h2)
      · exact Or.inr h2

theorem not_mem_convCR_cr (l : List Char) : '\r' ∉ convCR l := by
  induction l using convCR.induct with
  | case1 => simp [convCR]
  | case2 =>
    rw [convCR_one]
    simp
  | case3 a ha =>
    rw [convCR_one, if_neg ha]
    simp
    exact fun h => ha h.symm
  | case4 rest ih =>
    rw [convCR_crlf]
    intro hc
    rcases List.mem_cons.mp hc with h1 | h1
    · exact absurd h1 (by decide)
    · exact ih h1
  | case5 d rest hd ih =>
    rw [convCR_cr d rest hd]
    intro hc
    rcases List.mem_cons.mp hc with h1 | h1
    · exact absurd h1 (by decide)
    · exact ih h1
  | case6 a d rest ha ih =>
    rw [convCR_other a d rest ha]
    intro hc
    rcases List.mem_cons.mp hc with h1 | h1
    · exact ha h1.symm
    · exact ih h1

theorem convCR_eq_self (l : List Char) (h : '\r' ∉ l) : convCR l = l := by
  induction l using convCR.induct with
  | case1 => rfl
  | case2 => exact absurd (List.mem_cons_self _ _) h
  | case3 a ha => rw [convCR_one, if_neg ha]
  | case4 rest ih => exact absurd (List.mem_cons_self _ _) h
  | case5 d rest hd ih => exact absurd (List.mem_cons_self _ _) h
  | case6 a d rest ha ih =>
    rw [convCR_other a d rest ha, ih (fun hm => h (List.mem_cons_of_mem a hm))]

theorem map_eq_self_of {α : Type} (f : α → α) (l : List α)
    (h : ∀ c ∈ l, f c = c) : l.map f = l := by
  induction l with
  | nil => rfl
  | cons a rest ih =>
    rw [List.map_cons, h a (List.mem_cons_self a rest),
      ih (fun c hc => h c (List.mem_cons_of_mem a hc))]

theorem isSpTab_iff (c : Char) : isSpTab c = true ↔ (c = ' ' ∨ c = '\t') := by
  simp [isSpTab]

theorem isJsWs_of_isSpTab (c : Char) (h : isSpTab c = true) : isJsWs c = true := by
  rcases (isSpTab_iff c).mp h with h1 | h1 <;> rw [h1] <;> decide

theorem isSpTab_eq_false_of_not_ws (c : Char) (h : isJsWs c = false) :
    isSpTab c = false := by
  by_contra hb
  have := isJsWs_of_isSpTab c (by simpa using hb)
  rw [h] at this
  exact absurd this (by simp)

theorem okPairP_nl_nl : okPairP '\n' '\n' :=
  ⟨by decide, fun _ => Or.inr rfl, fun _ => Or.inr rfl⟩

theorem okPairP_nl_left (b : Char) (h : isJsWs b = false) : okPairP '\n' b :=
  ⟨fun hc => by
    have := isJsWs_of_isSpTab b hc.2
    rw [h] at this
    exact absurd this (by simp),
   fun _ => Or.inl h, fun _ => Or.inr rfl⟩

theorem okPairP_nl_right (a : Char) (h : isJsWs a = false) : okPairP a '\n' :=
  ⟨fun hc => by
    have := isJsWs_of_isSpTab a hc.1
    rw [h] at this
    exact absurd this (by simp),
   fun _ => Or.inr rfl, fun _ => Or.inl h⟩

theorem okPairP_of_not_nl (a b : Char) (ha : a ≠ '\n') (hb : b ≠ '\n')
    (hst : ¬(isSpTab a = true ∧ isSpTab b = true)) : okPairP a b :=
  ⟨hst, fun h => absurd h ha, fun h => absurd h hb⟩

theorem chain'_imp_mem {α : Type} {R S : α → α → Prop} (l : List α)
    (h : List.Chain' R l) (himp : ∀ a ∈ l, ∀ b ∈ l, R a b → S a b) :
    List.Chain' S l := by
  induction l with
  | nil => simp
  | cons a rest ih =>
    rw [List.chain'_cons'] at h ⊢
    refine ⟨?_, ?_⟩
    · intro y hy
      exact himp a (List.mem_cons_self a rest) y
        (List.mem_cons_of_mem a (List.mem_of_mem_head? hy)) (h.1 y hy)
    · exact ih h.2 (fun x hx y hy hr =>
        himp x (List.mem_cons_of_mem a hx) y (List.mem_cons_of_mem a hy) hr)

theorem lineOp_nil : lineOp [] = [] := by
  simp [lineOp, collapseRuns, collapseAux, trimJs, trimLeftJs]

theorem mem_lineOp (l : List Char) (c : Char) (h : c ∈ lineOp l) :
    (c ∈ l ∧ isSpTab c = false) ∨ c = ' ' := by
  exact mem_collapseRuns isSpTab l c (mem_trimJs _ c h)

theorem not_mem_lineOp_nl (l : List Char) (h : '\n' ∉ l) : '\n' ∉ lineOp l := by
  intro hc
  rcases mem_lineOp l '\n' hc with ⟨h1, _⟩ | h1
  · exact h h1
  · exact absurd h1 (by decide)

theorem not_mem_lineOp_tab (l : List Char) : '\t' ∉ lineOp l := by
  intro hc
  rcases mem_lineOp l '\t' hc with ⟨_, h1⟩ | h1
  · exact absurd h1 (by decide)
  · exact absurd h1 (by decide)

theorem chain'_okPairP_lineOp (l : List Char) (h : '\n' ∉ l) :
    List.Chain' okPairP (lineOp l) := by
  have h1 : List.Chain' (fun a b => ¬(isSpTab a = true ∧ isSpTab b = true)) (lineOp l) :=
    chain'_trimJs _ (chain'_collapseRuns isSpTab l)
  apply chain'_imp_mem _ h1
  intro a ha b hb hr
  exact okPairP_of_not_nl a b
    (fun hx => not_mem_lineOp_nl l h (hx ▸ ha))
    (fun hx => not_mem_lineOp_nl l h (hx ▸ hb)) hr

theorem lineOp_head_not_ws (l : List Char) (c : Char)
    (h : (lineOp l).head? = some c) : isJsWs c = false :=
  trimJs_head_not_ws _ c h

theorem lineOp_getLast_not_ws (l : List Char) (c : Char)
    (h : (lineOp l).getLast? = some c) : isJsWs c = false :=
  trimJs_getLast_not_ws _ c h

theorem lineOp_eq_self (l : List Char)
    (htab : '\t' ∉ l)
    (hch : List.Chain' okPairP l)
    (hh : ∀ c ∈ l.head?, isJsWs c = false)
    (hl : ∀ c ∈ l.getLast?, isJsWs c = false) :
    lineOp l = l := by
  have hcol : collapseRuns isSpTab l = l := by
    apply collapseRuns_eq_self
    · intro c hc hp
      rcases (isSpTab_iff c).mp hp with h1 | h1
      · exact h1
      · exact absurd (h1 ▸ hc) htab
    · exact chain'_imp_mem l hch (fun a _ b _ hr => hr.1)
  rw [lineOp, hcol]
  exact trimJs_eq_self l hh hl

theorem chain'_joinNL (ls : List (List Char))
    (h : ∀ l ∈ ls, List.Chain' okPairP l ∧ '\n' ∉ l ∧
       (∀ c ∈ l.head?, isJsWs c = false) ∧ (∀ c ∈ l.getLast?, isJsWs c = false)) :
    List.Chain' okPairP (joinNL ls) := by
  induction ls with
  | nil => simp [joinNL]
  | cons l ls ih =>
    cases ls with
    | nil =>
      rw [joinNL]
      exact (h l (List.mem_cons_self l [])).1
    | cons x xs =>
      rw [joinNL_cons_cons, List.chain'_append]
      refine ⟨(h l (List.mem_cons_self l _)).1, ?_, ?_⟩
      · rw [List.chain'_cons']
        refine ⟨?_, ih (fun a ha => h a (List.mem_cons_of_mem l ha))⟩
        intro y hy
        rcases head?_joinNL _ y hy with h1 | ⟨a, ha, hha⟩
        · rw [h1]
          exact okPairP_nl_nl
        · exact okPairP_nl_left y ((h a (List.mem_cons_of_mem l ha)).2.2.1 y hha)
      · intro a hA b hB
        simp at hB
        rw [← hB]
        exact okPairP_nl_right a ((h l (List.mem_cons_self l _)).2.2.2 a hA)

theorem lines_fixed_of_chain (ls : List (List Char))
    (hnl : ∀ l ∈ ls, '\n' ∉ l)
    (htab : ∀ l ∈ ls, '\t' ∉ l)
    (hch : List.Chain' okPairP (joinNL ls))
    (hh : ∀ c ∈ (joinNL ls).head?, isJsWs c = false ∨ c = '\n')
    (hl : ∀ c ∈ (joinNL ls).getLast?, isJsWs c = false ∨ c = '\n') :
    ∀ l ∈ ls, lineOp l = l := by
  induction ls with
  | nil =>
    intro l hm
    simp at hm
  | cons l ls ih =>
    cases ls with
    | nil =>
      intro l' hm
      have hm' : l' = l := by simpa using hm
      subst hm'
      rw [joinNL] at hch hh hl
      apply lineOp_eq_self l' (htab l' (List.mem_cons_self l' [])) hch
      · intro c hc
        rcases hh c hc with h1 | h1
        · exact h1
        · exact absurd (h1 ▸ List.mem_of_mem_head? hc)
            (hnl l' (List.mem_cons_self l' []))
      · intro c hc
        rcases hl c hc with h1 | h1
        · exact h1
        · exact absurd (h1 ▸ List.mem_of_mem_getLast? hc)
            (hnl l' (List.mem_cons_self l' []))
    | cons x xs =>
      intro l' hm
      rw [joinNL_cons_cons] at hch hh hl
      rcases List.chain'_append.mp hch with ⟨chl, chr, hjun⟩
      rcases List.mem_cons.mp hm with h1 | h1
      · subst h1
        apply lineOp_eq_self l' (htab l' (List.mem_cons_self l' _)) chl
        · intro c hc
          have hx : (l' ++ '\n' :: joinNL (x :: xs)).head? = some c := by
            rw [List.head?_append_of_ne_nil]
            · exact hc
            · intro hnil
              rw [hnil] at hc
              simp at hc
          rcases hh c hx with h2 | h2
          · exact h2
          · exact absurd (h2 ▸ List.mem_of_mem_head? hc)
              (hnl l' (List.mem_cons_self l' _))
        · intro c hc
          have hok : okPairP c '\n' := hjun c hc '\n' (by simp)
          rcases hok.2.2 rfl with h2 | h2
          · exact h2
          · exact absurd (h2 ▸ List.mem_of_mem_getLast? hc)
              (hnl l' (List.mem_cons_self l' _))
      · rw [List.chain'_cons'] at chr
        apply ih (fun a ha => hnl a (List.mem_cons_of_mem l ha))
          (fun a ha => htab a (List.mem_cons_of_mem l ha)) chr.2
        · intro c hc
          exact (chr.1 c hc).2.1 rfl
        · intro c hc
          rcases hx : joinNL (x :: xs) with _ | ⟨b, bs⟩
          · rw [hx] at hc
            simp at hc
          · apply hl
            rw [List.getLast?_append_of_ne_nil _ (by simp), hx,
              List.getLast?_cons_cons]
            rw [hx] at hc
            exact hc
        · exact h1

theorem goodChar_space : goodChar ' ' := ⟨by decide, by decide, by decide, by decide⟩

theorem goodChar_nl : goodChar '\n' := ⟨by decide, by decide, by decide, by decide⟩

theorem knl_normal (s : List Char) : KNLNormal (normalizeTextKeepNewlines s) := by
  have hlines : ∀ l ∈ (splitOnNL (convCR ((s.filter (fun c => !isHebDia c)).map jsLower))).map lineOp,
      List.Chain' okPairP l ∧ '\n' ∉ l ∧
      (∀ c ∈ l.head?, isJsWs c = false) ∧ (∀ c ∈ l.getLast?, isJsWs c = false) := by
    intro l hm
    rcases List.mem_map.mp hm with ⟨l0, hl0, rfl⟩
    have hnl0 : '\n' ∉ l0 := mem_splitOnNL_no_nl _ l0 hl0
    exact ⟨chain'_okPairP_lineOp l0 hnl0, not_mem_lineOp_nl l0 hnl0,
      fun c hc => lineOp_head_not_ws l0 c hc,
      fun c hc => lineOp_getLast_not_ws l0 c hc⟩
  refine ⟨?_, ?_, ?_, ?_⟩
  · intro c hc
    rw [normalizeTextKeepNewlines] at hc
    have hc1 := mem_trimJs _ c hc
    rcases mem_joinNL _ c hc1 with ⟨l, hli, hcl⟩ | hnl
    · rcases List.mem_map.mp hli with ⟨l0, hl0, rfl⟩
      rcases mem_lineOp l0 c hcl with ⟨hcm, hst⟩ | hsp
      · have hcw : c ∈ convCR ((s.filter (fun c => !isHebDia c)).map jsLower) :=
          mem_of_mem_splitOnNL _ l0 hl0 c hcm
        have hcr : c ≠ '\r' := fun hx => not_mem_convCR_cr _ (hx ▸ hcw)
        rcases mem_convCR _ c hcw with h1 | h1
        · rcases List.mem_map.mp h1 with ⟨d, hd, rfl⟩
          have hdd : isHebDia d = false := by
            have := (List.mem_filter.mp hd).2
            simpa using this
          refine ⟨?_, jsLower_idem d, hcr, ?_⟩
          · rw [isHebDia_jsLower]
            exact hdd
          · intro hx
            rw [hx] at hst
            exact absurd hst (by decide)
        · rw [h1]
          exact goodChar_nl
      · rw [hsp]
        exact goodChar_space
    · rw [hnl]
      exact goodChar_nl
  · rw [normalizeTextKeepNewlines]
    exact chain'_trimJs _ (chain'_joinNL _ hlines)
  · intro c hc
    rw [normalizeTextKeepNewlines] at hc
    exact trimJs_head_not_ws _ c hc
  · intro c hc
    rw [normalizeTextKeepNewlines] at hc
    exact trimJs_getLast_not_ws _ c hc

theorem knl_fixed (y : List Char) (h : KNLNormal y) :
    normalizeTextKeepNewlines y = y := by
  obtain ⟨hg, hch, hh, hl⟩ := h
  have hfil : y.filter (fun c => !isHebDia c) = y :=
    List.filter_eq_self.mpr (fun c hc => by simp [(hg c hc).1])
  have hmap : y.map jsLower = y := map_eq_self_of _ _ (fun c hc => (hg c hc).2.1)
  have hcr : '\r' ∉ y := fun hm => (hg '\r' hm).2.2.1 rfl
  have hconv : convCR y = y := convCR_eq_self y hcr
  have hlines : ∀ l ∈ splitOnNL y, lineOp l = l := by
    apply lines_fixed_of_chain
    · exact fun l hm => mem_splitOnNL_no_nl y l hm
    · intro l hm htm
      exact (hg '\t' (mem_of_mem_splitOnNL y l hm '\t' htm)).2.2.2 rfl
    · rw [joinNL_splitOnNL]
      exact hch
    · rw [joinNL_splitOnNL]
      exact fun c hc => Or.inl (hh c hc)
    · rw [joinNL_splitOnNL]
      exact fun c hc => Or.inl (hl c hc)
  have hmapl : (splitOnNL y).map lineOp = splitOnNL y :=
    map_eq_self_of _ _ hlines
  rw [normalizeTextKeepNewlines, hfil, hmap, hconv, hmapl, joinNL_splitOnNL]
  exact trimJs_eq_self y hh hl

theorem normalizeTextKeepNewlines_idem (s : List Char) :
    normalizeTextKeepNewlines (normalizeTextKeepNewlines s) = normalizeTextKeepNewlines s :=
  knl_fixed _ (knl_normal s)

theorem isNL_eq_true_iff (c : Char) : (fun c : Char => (c = '\n' : Bool)) c = true ↔ c = '\n' := by
  simp

theorem normalizeInline_fixed_facts (s : List Char) :
    (∀ c ∈ normalizeInline s, goodChar c) ∧
    '\n' ∉ normalizeInline s ∧
    (∀ c ∈ normalizeInline s, isJsWs c = true → c = ' ') ∧
    List.Chain' (fun a b => ¬(isJsWs a = true ∧ isJsWs b = true)) (normalizeInline s) ∧
    (∀ c ∈ (normalizeInline s).head?, isJsWs c = false) ∧
    (∀ c ∈ (normalizeInline s).getLast?, isJsWs c = false) := by
  refine ⟨?_, ?_, ?_, ?_, ?_, ?_⟩
  · intro c hc
    have hc1 := mem_trimJs _ c hc
    rcases mem_collapseRuns _ _ c hc1 with ⟨hc2, _⟩ | hsp
    · rcases mem_collapseRuns _ _ c hc2 with ⟨hc3, _⟩ | hsp2
      · exact (knl_normal s).1 c hc3
      · rw [hsp2]
        exact goodChar_space
    · rw [hsp]
      exact goodChar_space
  · intro hc
    have hc1 := mem_trimJs _ '\n' hc
    exact not_mem_collapseRuns isJsWs _ '\n' isJsWs_nl (by decide) hc1
  · intro c hc hw
    exact ws_mem_collapseRuns isJsWs _ c (mem_trimJs _ c hc) hw
  · exact chain'_trimJs _ (chain'_collapseRuns isJsWs _)
  · intro c hc
    exact trimJs_head_not_ws _ c hc
  · intro c hc
    exact trimJs_getLast_not_ws _ c hc

theorem inline_normal_fixed (y : List Char)
    (hg : ∀ c ∈ y, goodChar c)
    (hnl : '\n' ∉ y)
    (hws : ∀ c ∈ y, isJsWs c = true → c = ' ')
    (hch : List.Chain' (fun a b => ¬(isJsWs a = true ∧ isJsWs b = true)) y)
    (hh : ∀ c ∈ y.head?, isJsWs c = false)
    (hl : ∀ c ∈ y.getLast?, isJsWs c = false) :
    normalizeInline y = y := by
  have hknl : normalizeTextKeepNewlines y = y := by
    apply knl_fixed
    refine ⟨hg, ?_, hh, hl⟩
    apply chain'_imp_mem y hch
    intro a ha b hb hr
    refine ⟨?_, ?_, ?_⟩
    · intro hcon
      exact hr ⟨isJsWs_of_isSpTab a hcon.1, isJsWs_of_isSpTab b hcon.2⟩
    · intro hx
      exact absurd (hx ▸ ha) hnl
    · intro hx
      exact absurd (hx ▸ hb) hnl
  have hcnl : collapseRuns (fun c => (c = '\n' : Bool)) y = y := by
    apply collapseRuns_eq_self
    · intro c hc hp
      have : c = '\n' := by simpa using hp
      exact absurd (this ▸ hc) hnl
    · apply chain'_imp_mem y hch
      intro a ha b hb _ hcon
      have : a = '\n' := by simpa using hcon.1
      exact absurd (this ▸ ha) hnl
  have hcws : collapseRuns isJsWs y = y := collapseRuns_eq_self isJsWs y hws hch
  rw [normalizeInline, hknl, hcnl, hcws]
  exact trimJs_eq_self y hh hl

theorem normalizeInline_idem (s : List Char) :
    normalizeInline (normalizeInline s) = normalizeInline s := by
  obtain ⟨hg, hnl, hws, hch, hh, hl⟩ := normalizeInline_fixed_facts s
  exact inline_normal_fixed _ hg hnl hws hch hh hl

theorem nfkcChar_eq_self_of_not_ws (c : Char) (h : isJsWs c = false) :
    nfkcChar c = c := by
  rw [nfkcChar]
  by_cases hx : c.toNat = 0x00A0
  · have : isJsWs c = true := by
      simp [isJsWs, hx]
    rw [h] at this
    exact absurd this (by simp)
  · rw [if_neg hx]

theorem nfkcChar_space : nfkcChar ' ' = ' ' := by decide

theorem normalizeText_idem (s : List Char) :
    normalizeText (normalizeText s) = normalizeText s := by
  set u := ((s.map nfkcChar).map jsLower).filter (fun c => !isBidiMark c) with hu
  have humem : ∀ c ∈ normalizeText s,
      (c ∈ u ∧ isJsWs c = false) ∨ c = ' ' := by
    intro c hc
    rw [normalizeText, ← hu] at hc
    exact mem_collapseRuns _ _ c (mem_trimJs _ c hc)
  have hnfkc : (normalizeText s).map nfkcChar = normalizeText s := by
    apply map_eq_self_of
    intro c hc
    rcases humem c hc with ⟨_, hw⟩ | hsp
    · exact nfkcChar_eq_self_of_not_ws c hw
    · rw [hsp]
      exact nfkcChar_space
  have hlow : (normalizeText s).map jsLower = normalizeText s := by
    apply map_eq_self_of
    intro c hc
    rcases humem c hc with ⟨hcu, _⟩ | hsp
    · rcases List.mem_map.mp (List.mem_filter.mp hcu).1 with ⟨d, _, rfl⟩
      exact jsLower_idem d
    · rw [hsp]
      exact jsLower_space
  have hfil : (normalizeText s).filter (fun c => !isBidiMark c) = normalizeText s := by
    apply List.filter_eq_self.mpr
    intro c hc
    rcases humem c hc with ⟨hcu, _⟩ | hsp
    · exact (List.mem_filter.mp hcu).2
    · rw [hsp]
      decide
  have hcws : collapseRuns isJsWs (normalizeText s) = normalizeText s := by
    apply collapseRuns_eq_self
    · intro c hc hw
      rw [normalizeText, ← hu] at hc
      exact ws_mem_collapseRuns isJsWs _ c (mem_trimJs _ c hc) hw
    · have : List.Chain' (fun a b => ¬(isJsWs a = true ∧ isJsWs b = true)) (normalizeText s) := by
        rw [normalizeText, ← hu]
        exact chain'_trimJs _ (chain'_collapseRuns isJsWs u)
      exact this
  have hh : ∀ c ∈ (normalizeText s).head?, isJsWs c = false := by
    intro c hc
    rw [normalizeText, ← hu] at hc
    exact trimJs_head_not_ws _ c hc
  have hl : ∀ c ∈ (normalizeText s).getLast?, isJsWs c = false := by
    intro c hc
    rw [normalizeText, ← hu] at hc
    exact trimJs_getLast_not_ws _ c hc
  conv_lhs => rw [normalizeText]
  rw [hnfkc, hlow, hfil, hcws]
  exact trimJs_eq_self _ hh hl

/-- C4.  `normalize(normalize(x)) = normalize(x)` for every input, for the
newline-preserving normalizer and the inline normalizer of
`scripts/risk-scan.mjs` as well as the NFKC-based normalizer of the
`risk_engine` edge function: applying the text normalizer a second time
yields identical output. -/
theorem claim_C4_normalize_idempotent (s : List Char) :
    normalizeTextKeepNewlines (normalizeTextKeepNewlines s) = normalizeTextKeepNewlines s ∧
    normalizeInline (normalizeInline s) = normalizeInline s ∧
    normalizeText (normalizeText s) = normalizeText s :=
  ⟨normalizeTextKeepNewlines_idem s, normalizeInline_idem s, normalizeText_idem s⟩

theorem stepLine_no_match (line : List Char) (h : ¬linePrefixMatch line) :
    stepLine none none line = (none, none) := by
  by_cases hnil : line = []
  · rw [stepLine, if_pos hnil]
  · have h1 : matchTsLit ("המטפל:".data) line = none := by
      rcases hx : matchTsLit ("המטפל:".data) line with _ | r
      · rfl
      · exact absurd (Or.inl (by simp [hx])) h
    have h2 : matchTsLitCI ("q:".data) line = none := by
      rcases hx : matchTsLitCI ("q:".data) line with _ | r
      · rfl
      · exact absurd (Or.inr (Or.inl (by simp [hx]))) h
    have h3 : matchTsLitCI ("a:".data) line = none := by
      rcases hx : matchTsLitCI ("a:".data) line with _ | r
      · rfl
      · exact absurd (Or.inr (Or.inr (Or.inl (by simp [hx])))) h
    have h4 : matchGenericPatient line = none := by
      rcases hx : matchGenericPatient line with _ | r
      · rfl
      · exact absurd (Or.inr (Or.inr (Or.inr (Or.inl (by simp [hx]))))) h
    have h5 : matchLit ("שאלה:".data) (trimLeftJs line) = none := by
      rcases hx : matchLit ("שאלה:".data) (trimLeftJs line) with _ | r
      · rfl
      · exact absurd (Or.inr (Or.inr (Or.inr (Or.inr (Or.inl (by simp [hx])))))) h
    have h6 : matchLit ("תשובה:".data) (trimLeftJs line) = none := by
      rcases hx : matchLit ("תשובה:".data) (trimLeftJs line) with _ | r
      · rfl
      · exact absurd (Or.inr (Or.inr (Or.inr (Or.inr (Or.inr (by simp [hx])))))) h
    rw [stepLine, if_neg hnil]
    simp only [Option.bind_none, Option.bind, h1, h2, h3, h4, h5, h6]
    simp

theorem extractLines_no_match (lines : List (List Char))
    (h : ∀ line ∈ lines, ¬linePrefixMatch line) :
    extractLines none none lines = [] := by
  induction lines with
  | nil => rfl
  | cons line rest ih =>
    rw [extractLines]
    rw [stepLine_no_match line (h line (List.mem_cons_self line rest))]
    exact ih (fun l hl => h l (List.mem_cons_of_mem line hl))

/-- C9.  When no subject name is configured (only the generic/label-based
prefixes apply) and no line of the normalized transcript matches any
recognized subject or counterpart prefix, `extractPatientOnlyByViewerRules`
returns the empty string, and the row scan of `main` passes nothing to
pattern matching and produces no items. -/
theorem claim_C9_no_prefix_drops_text (text : List Char)
    (h : ∀ line ∈ splitOnNL (normalizeTextKeepNewlines text), ¬linePrefixMatch line) :
    extractPatientOnlyByViewerRules (normalizeTextKeepNewlines text) none = [] ∧
    ∀ pats, riskScanRowItems pats
      (extractPatientOnlyByViewerRules (normalizeTextKeepNewlines text) none) = [] := by
  have hext : extractPatientOnlyByViewerRules (normalizeTextKeepNewlines text) none = [] := by
    rw [extractPatientOnlyByViewerRules, extractLines_no_match _ h]
    decide
  refine ⟨hext, ?_⟩
  intro pats
  rw [hext, riskScanRowItems, if_pos rfl]

/-- Witness for C9 at a concrete transcript with no speaker prefixes. -/
theorem claim_C9_witness :
    extractPatientOnlyByViewerRules
      (normalizeTextKeepNewlines ("שלום עולם\nמה נשמע היום".data)) none = [] ∧
    riskScanRowItems [("רוצה למות".data)]
      (extractPatientOnlyByViewerRules
        (normalizeTextKeepNewlines ("שלום עולם\nמה נשמע היום".data)) none) = [] := by
  have h := claim_C9_no_prefix_drops_text ("שלום עולם\nמה נשמע היום".data) (by decide)
  exact ⟨h.1, h.2 [("רוצה למות".data)]⟩


theorem strFindAux_some (needle l : List Char) :
    ∀ (i j : Nat), strFindAux needle l i = some j →
      i ≤ j ∧ j - i ≤ l.length ∧ needle.isPrefixOf (l.drop (j - i)) = true := by
  induction l with
  | nil =>
    intro i j h
    rw [strFindAux] at h
    by_cases hp : needle.isPrefixOf [] = true
    · rw [if_pos hp] at h
      simp at h
      subst h
      simpa using hp
    · rw [if_neg hp] at h
      simp at h
  | cons c rest ih =>
    intro i j h
    rw [strFindAux] at h
    by_cases hp : needle.isPrefixOf (c :: rest) = true
    · rw [if_pos hp] at h
      simp at h
      subst h
      simpa using hp
    · rw [if_neg hp] at h
      obtain ⟨h1, h2, h3⟩ := ih (i + 1) j h
      refine ⟨by omega, ?_, ?_⟩
      · simp only [List.length_cons]
        omega
      · have hji : j - i = (j - (i + 1)) + 1 := by omega
        rw [hji, List.drop_succ_cons]
        exact h3

theorem strFindAux_min (needle l : List Char) :
    ∀ (i j k : Nat), strFindAux needle l i = some j → i ≤ k → k < j →
      needle.isPrefixOf (l.drop (k - i)) = false := by
  induction l with
  | nil =>
    intro i j k h hik hkj
    rw [strFindAux] at h
    by_cases hp : needle.isPrefixOf [] = true
    · rw [if_pos hp] at h
      simp at h
      omega
    · rw [if_neg hp] at h
      simp at h
  | cons c rest ih =>
    intro i j k h hik hkj
    rw [strFindAux] at h
    by_cases hp : needle.isPrefixOf (c :: rest) = true
    · rw [if_pos hp] at h
      simp at h
      omega
    · rw [if_neg hp] at h
      by_cases hk : k = i
      · subst hk
        simp only [Nat.sub_self, List.drop_zero]
        exact Bool.eq_false_iff.mpr hp
      · have hk1 : i + 1 ≤ k := by omega
        have := ih (i + 1) j k h hk1 hkj
        have hki : k - i = (k - (i + 1)) + 1 := by omega
        rw [hki, List.drop_succ_cons]
        exact this

theorem strFindAux_none (needle l : List Char) :
    ∀ (i : Nat), strFindAux needle l i = none →
      ∀ k, i ≤ k → k - i ≤ l.length → needle.isPrefixOf (l.drop (k - i)) = false := by
  induction l with
  | nil =>
    intro i h k hik hk
    rw [strFindAux] at h
    by_cases hp : needle.isPrefixOf [] = true
    · rw [if_pos hp] at h
      simp at h
    · rw [if_neg hp] at h
      simp at hk
      have : k = i := by omega
      subst this
      simp only [Nat.sub_self, List.drop_zero]
      exact Bool.eq_false_iff.mpr hp
  | cons c rest ih =>
    intro i h k hik hk
    rw [strFindAux] at h
    by_cases hp : needle.isPrefixOf (c :: rest) = true
    · rw [if_pos hp] at h
      simp at h
    · rw [if_neg hp] at h
      by_cases hki : k = i
      · subst hki
        simp only [Nat.sub_self, List.drop_zero]
        exact Bool.eq_false_iff.mpr hp
      · have hk1 : i + 1 ≤ k := by omega
        have hkk : k - i = (k - (i + 1)) + 1 := by omega
        have hlen : k - (i + 1) ≤ rest.length := by
          simp only [List.length_cons] at hk
          omega
        have := ih (i + 1) h k hk1 hlen
        rw [hkk, List.drop_succ_cons]
        exact this

theorem drop_drop_eq (hay : List Char) (start k : Nat) (h : start ≤ k) :
    (hay.drop start).drop (k - start) = hay.drop k := by
  rw [List.drop_drop]
  congr 1
  omega

theorem strFind_some (needle hay : List Char) (start j : Nat)
    (h : strFind needle hay start = some j) :
    start ≤ j ∧ occursAt needle hay j := by
  rw [strFind] at h
  by_cases hs : start ≤ hay.length
  · rw [if_pos hs] at h
    obtain ⟨h1, h2, h3⟩ := strFindAux_some needle (hay.drop start) start j h
    rw [drop_drop_eq hay start j h1] at h3
    refine ⟨h1, h3, ?_⟩
    simp only [List.length_drop] at h2
    omega
  · rw [if_neg hs] at h
    simp at h

theorem strFind_min (needle hay : List Char) (start j k : Nat)
    (h : strFind needle hay start = some j) (h1 : start ≤ k) (h2 : k < j) :
    needle.isPrefixOf (hay.drop k) = false := by
  rw [strFind] at h
  by_cases hs : start ≤ hay.length
  · rw [if_pos hs] at h
    have := strFindAux_min needle (hay.drop start) start j k h h1 h2
    rw [drop_drop_eq hay start k h1] at this
    exact this
  · rw [if_neg hs] at h
    simp at h

theorem strFind_none (needle hay : List Char) (start : Nat)
    (h : strFind needle hay start = none) (k : Nat) (h1 : start ≤ k)
    (h2 : k ≤ hay.length) : needle.isPrefixOf (hay.drop k) = false := by
  rw [strFind] at h
  by_cases hs : start ≤ hay.length
  · rw [if_pos hs] at h
    have hlen : k - start ≤ (hay.drop start).length := by
      simp only [List.length_drop]
      omega
    have := strFindAux_none needle (hay.drop start) start h k h1 hlen
    rw [drop_drop_eq hay start k h1] at this
    exact this
  · omega

theorem length_le_of_isPrefixOf (l₁ : List Char) :
    ∀ l₂ : List Char, l₁.isPrefixOf l₂ = true → l₁.length ≤ l₂.length := by
  induction l₁ with
  | nil =>
    intro l₂ _
    simp
  | cons a as ih =>
    intro l₂ h
    cases l₂ with
    | nil => simp [List.isPrefixOf] at h
    | cons b bs =>
      simp only [List.isPrefixOf, Bool.and_eq_true] at h
      simp only [List.length_cons, Nat.succ_le_succ_iff]
      exact ih bs h.2

theorem occursAt_length (needle hay : List Char) (j : Nat)
    (h : occursAt needle hay j) : j + needle.length ≤ hay.length := by
  have := length_le_of_isPrefixOf needle (hay.drop j) h.1
  simp only [List.length_drop] at this
  have := h.2
  omega

/-- C10.  The match-enumeration loop of the incremental scanner terminates:
for any `exec` oracle that returns in-text matches at or after `lastIndex`
(as a compiled global regex does), the loop completes within
`text.length + 2` iterations, because `lastIndex` strictly increases — in
particular a zero-length match advances it by one.  The literal-pattern
oracle used by `scanIncremental` satisfies the premise, so `jsMatchAll`
always returns with its fuel intact. -/
theorem claim_C10_exec_loop_terminates :
    (∀ (f : Nat → Option (Nat × Nat)) (tlen : Nat),
      (∀ li i len, f li = some (i, len) → li ≤ i ∧ i + len ≤ tlen) →
      ∀ li fuel, tlen + 1 - li < fuel → execLoopO f li fuel ≠ none) ∧
    (∀ needle hay li i len, litOracle needle hay li = some (i, len) →
      li ≤ i ∧ i + len ≤ hay.length) ∧
    (∀ needle hay : List Char,
      (execLoopO (litOracle needle hay) 0 (hay.length + 2)).isSome = true) := by
  have hlit : ∀ needle hay li i len, litOracle needle hay li = some (i, len) →
      li ≤ i ∧ i + len ≤ hay.length := by
    intro needle hay li i len h
    rw [litOracle] at h
    rcases hy : strFind needle hay li with _ | j
    · rw [hy] at h
      simp at h
    · rw [hy] at h
      simp at h
      obtain ⟨hj, hl⟩ := h
      obtain ⟨h1, h2⟩ := strFind_some needle hay li j hy
      have := occursAt_length needle hay j h2
      omega
  have hterm : ∀ (f : Nat → Option (Nat × Nat)) (tlen : Nat),
      (∀ li i len, f li = some (i, len) → li ≤ i ∧ i + len ≤ tlen) →
      ∀ li fuel, tlen + 1 - li < fuel → execLoopO f li fuel ≠ none := by
    intro f tlen hf li fuel
    induction fuel generalizing li with
    | zero =>
      intro h
      omega
    | succ fuel ih =>
      intro hlt
      rw [execLoopO]
      rcases hx : f li with _ | ⟨i, len⟩
      · simp
      · obtain ⟨h1, h2⟩ := hf li i len hx
        have hne : execLoopO f (if len = 0 then i + 1 else i + len) fuel ≠ none := by
          apply ih
          by_cases hl : len = 0
          · simp only [hl, if_true]
            omega
          · simp only [hl, if_false]
            omega
        rcases hy : execLoopO f (if len = 0 then i + 1 else i + len) fuel with _ | t
        · exact absurd hy hne
        · simp [hy]
  refine ⟨hterm, hlit, ?_⟩
  intro needle hay
  have := hterm (litOracle needle hay) hay.length (hlit needle hay) 0 (hay.length + 2) (by omega)
  rcases hx : execLoopO (litOracle needle hay) 0 (hay.length + 2) with _ | ms
  · exact absurd hx this
  · simp

/-- Witness for C10: a worst-case oracle producing a zero-length match at
every position of a length-5 text still terminates. -/
theorem claim_C10_witness :
    execLoopO (fun li => if li ≤ 5 then some (li, 0) else none) 0 7 ≠ none :=
  claim_C10_exec_loop_terminates.1 (fun li => if li ≤ 5 then some (li, 0) else none) 5
    (fun li i len h => by
      simp only [] at h
      by_cases hli : li ≤ 5
      · rw [if_pos hli] at h
        simp at h
        omega
      · rw [if_neg hli] at h
        simp at h)
    0 7 (by omega)


theorem execLoop_lit_spec (needle hay : List Char) (hne : needle ≠ []) :
    ∀ fuel li, hay.length + 1 - li < fuel →
      ∃ ms, execLoopO (litOracle needle hay) li fuel = some ms ∧
        (∀ m ∈ ms, li ≤ m.1 ∧ m.2 = needle.length ∧ occursAt needle hay m.1) ∧
        (∀ k, li ≤ k → occursAt needle hay k →
          ∃ m ∈ ms, m.1 ≤ k ∧ k < m.1 + needle.length) := by
  intro fuel
  induction fuel with
  | zero =>
    intro li h
    omega
  | succ fuel ih =>
    intro li hlt
    rcases hy : strFind needle hay li with _ | i
    · have hx : litOracle needle hay li = none := by
        rw [litOracle, hy]
        rfl
      refine ⟨[], ?_, by simp, ?_⟩
      · rw [execLoopO, hx]
      · intro k hk hocc
        exfalso
        have := strFind_none needle hay li hy k hk hocc.2
        rw [hocc.1] at this
        exact absurd this (by simp)
    · have hx : litOracle needle hay li = some (i, needle.length) := by
        rw [litOracle, hy]
        rfl
      obtain ⟨hli, hocc⟩ := strFind_some needle hay li i hy
      have hlen0 : needle.length ≠ 0 := by
        intro hz
        exact hne (List.length_eq_zero.mp hz)
      have hbound := occursAt_length needle hay i hocc
      obtain ⟨ms', hms', hsound', hcomp'⟩ := ih (i + needle.length) (by omega)
      refine ⟨(i, needle.length) :: ms', ?_, ?_, ?_⟩
      · rw [execLoopO, hx]
        dsimp only
        rw [if_neg hlen0, hms']
        rfl
      · intro m hm
        rcases List.mem_cons.mp hm with h1 | h1
        · rw [h1]
          exact ⟨hli, rfl, hocc⟩
        · obtain ⟨hm1, hm2, hm3⟩ := hsound' m h1
          exact ⟨by omega, hm2, hm3⟩
      · intro k hk hocck
        by_cases hcase : k < i + needle.length
        · have hik : i ≤ k := by
            by_contra hlt2
            have := strFind_min needle hay li i k hy hk (by omega)
            rw [hocck.1] at this
            exact absurd this (by simp)
          exact ⟨(i, needle.length), List.mem_cons_self _ _, hik, hcase⟩
        · obtain ⟨m, hm, hm1, hm2⟩ := hcomp' k (by omega) hocck
          exact ⟨m, List.mem_cons_of_mem _ hm, hm1, hm2⟩

/-- C7 (amended).  For the incremental scanner (`risk_engine`), where
`compileRegex` turns each pattern into a global matcher and the exec loop
of `scanIncremental` enumerates matches: for every nonempty literal
pattern and every text, `jsMatchAll` is sound (each reported span is a
real occurrence of the pattern) and complete in the non-overlapping
sense — every occurrence of the pattern either is reported or overlaps a
reported match.  In particular the scanner does not stop at the first
occurrence. -/
theorem claim_C7_all_matches (needle hay : List Char) (hne : needle ≠ []) :
    (∀ m ∈ jsMatchAll needle hay, m.2 = needle.length ∧ occursAt needle hay m.1) ∧
    (∀ k, occursAt needle hay k →
      ∃ m ∈ jsMatchAll needle hay, m.1 ≤ k ∧ k < m.1 + needle.length) := by
  obtain ⟨ms, hms, hsound, hcomp⟩ :=
    execLoop_lit_spec needle hay hne (hay.length + 2) 0 (by omega)
  rw [jsMatchAll, hms]
  simp only [Option.getD_some]
  exact ⟨fun m hm => ⟨(hsound m hm).2.1, (hsound m hm).2.2⟩,
    fun k hk => hcomp k (Nat.zero_le k) hk⟩

/-- Witness for C7 (amended) at a concrete pattern and text with two
occurrences. -/
theorem claim_C7_witness :
    (∀ m ∈ jsMatchAll ("ab".data) ("abxab".data),
      m.2 = ("ab".data).length ∧ occursAt ("ab".data) ("abxab".data) m.1) ∧
    (∃ m ∈ jsMatchAll ("ab".data) ("abxab".data), m.1 ≤ 3 ∧ 3 < m.1 + ("ab".data).length) := by
  have h := claim_C7_all_matches ("ab".data) ("abxab".data) (by decide)
  exact ⟨h.1, h.2 3 (by decide)⟩

/-- Counterexample to C7 as stated: the substring matcher of
`scripts/risk-scan.mjs` (`patientText.indexOf(pattern)`) reports only the
first occurrence.  On text `"a a"` the pattern `"a"` occurs at positions
0 and 2, but the row scan reports exactly one match, at 0. -/
theorem claim_C7_counterexample :
    occursAt ("a".data) ("a a".data) 0 ∧ occursAt ("a".data) ("a a".data) 2 ∧
    riskScanMatches ("a".data) ("a a".data) = [0] ∧
    (2 : Nat) ∉ riskScanMatches ("a".data) ("a a".data) := by
  refine ⟨by decide, by decide, by decide, by decide⟩

end Landbot

namespace Landbot

theorem stepLine_ther (name? : Option (List Char)) (sp : Option Speaker)
    (line : List Char) (h : therLineB name? line = true) :
    stepLine name? sp line = (some Speaker.therapist, none) := by
  rw [therLineB] at h
  simp only [Bool.and_eq_true, Bool.or_eq_true] at h
  obtain ⟨⟨hne, hname⟩, hrest⟩ := h
  have hnil : line ≠ [] := by
    intro hx
    rw [hx] at hne
    simp at hne
  have hname' : name?.bind (fun nm => matchTsLit (nm ++ [':']) line) = none :=
    Option.isNone_iff_eq_none.mp hname
  rw [stepLine, if_neg hnil, hname']
  by_cases hther : (matchTsLit ("המטפל:".data) line).isSome = true
  · simp [hther]
  · rcases hrest with hther2 | ⟨hq, hrest2⟩
    · exact absurd hther2 hther
    · have hq' : matchTsLitCI ("q:".data) line = none := Option.isNone_iff_eq_none.mp hq
      rcases hrest2 with ha | ⟨⟨hg, hsh⟩, hts⟩
      · simp [hther, hq', ha]
      · have hg' : matchGenericPatient line = none := Option.isNone_iff_eq_none.mp hg
        have hsh' : matchLit ("שאלה:".data) (trimLeftJs line) = none :=
          Option.isNone_iff_eq_none.mp hsh
        by_cases ha : (matchTsLitCI ("a:".data) line).isSome = true
        · simp [hther, hq', ha]
        · rcases hr : matchLit ("תשובה:".data) (trimLeftJs line) with _ | r
          · rw [hr] at hts
            simp at hts
          · simp [hther, hq', ha, hg', hsh', hr]

theorem stepLine_cont (name? : Option (List Char)) (line : List Char)
    (h : (line.isEmpty || noPrefixLineB name? line) = true) :
    stepLine name? (some Speaker.therapist) line = (some Speaker.therapist, none) := by
  rcases Bool.or_eq_true _ _ |>.mp h with hemp | hnp
  · have : line = [] := by
      cases line with
      | nil => rfl
      | cons a rest => simp at hemp
    rw [stepLine, if_pos this]
  · rw [noPrefixLineB] at hnp
    simp only [Bool.and_eq_true] at hnp
    obtain ⟨⟨⟨⟨⟨⟨⟨hne, hname⟩, hther⟩, hq⟩, ha⟩, hg⟩, hsh⟩, hts⟩ := hnp
    have hnil : line ≠ [] := by
      intro hx
      rw [hx] at hne
      simp at hne
    rw [stepLine, if_neg hnil, Option.isNone_iff_eq_none.mp hname,
      Option.isNone_iff_eq_none.mp hq]
    simp [Option.isNone_iff_eq_none.mp hther, Option.isNone_iff_eq_none.mp ha,
      Option.isNone_iff_eq_none.mp hg, Option.isNone_iff_eq_none.mp hsh,
      Option.isNone_iff_eq_none.mp hts]

theorem extractLines_equiv (name? : Option (List Char)) (sp : Option Speaker)
    (ls₁ ls₂ : List (List Char)) (h : EquivFrom name? sp ls₁ ls₂) :
    extractLines name? sp ls₁ = extractLines name? sp ls₂ := by
  induction h with
  | nil sp => rfl
  | consEq sp line ls₁ ls₂ h ih =>
    rcases hsl : stepLine name? sp line with ⟨sp', contrib⟩
    rw [hsl] at ih
    dsimp only at ih
    rw [extractLines, extractLines, hsl]
    cases contrib with
    | none =>
      dsimp only
      exact ih
    | some r =>
      dsimp only
      rw [ih]
  | consTher sp l₁ l₂ ls₁ ls₂ h₁ h₂ h ih =>
    rw [extractLines, extractLines, stepLine_ther name? sp l₁ h₁,
      stepLine_ther name? sp l₂ h₂]
    exact ih
  | consCont l₁ l₂ ls₁ ls₂ h₁ h₂ h ih =>
    rw [extractLines, extractLines, stepLine_cont name? l₁ h₁, stepLine_cont name? l₂ h₂]
    exact ih

/-- C1 (amended).  In the `risk-scan.mjs` pipeline, counterpart-authored
text contributes nothing to the subject-only string: if two transcripts
differ only in counterpart-attributed material (therapist-prefixed lines,
or unprefixed lines while the speaker state is the counterpart), the
extracted patient-only text and every produced (match, snippet_text) row
item are identical.  The incremental scanner of the `risk_engine` edge
function does not have this property (see the counterexample): it matches
patterns against the whole normalized text with no speaker attribution. -/
theorem claim_C1_counterpart_excluded (pats : List (List Char))
    (name? : Option (List Char)) (t₁ t₂ : List Char)
    (h : EquivFrom name? none (splitOnNL (normalizeTextKeepNewlines t₁))
          (splitOnNL (normalizeTextKeepNewlines t₂))) :
    extractPatientOnlyByViewerRules (normalizeTextKeepNewlines t₁) name? =
      extractPatientOnlyByViewerRules (normalizeTextKeepNewlines t₂) name? ∧
    riskScanRowItems pats
        (extractPatientOnlyByViewerRules (normalizeTextKeepNewlines t₁) name?) =
      riskScanRowItems pats
        (extractPatientOnlyByViewerRules (normalizeTextKeepNewlines t₂) name?) := by
  have he : extractPatientOnlyByViewerRules (normalizeTextKeepNewlines t₁) name? =
      extractPatientOnlyByViewerRules (normalizeTextKeepNewlines t₂) name? := by
    rw [extractPatientOnlyByViewerRules, extractPatientOnlyByViewerRules,
      extractLines_equiv name? none _ _ h]
  exact ⟨he, by rw [he]⟩

/-- Witness for C1 (amended): replacing the content of a therapist line
changes neither the extracted text nor the produced row items. -/
theorem claim_C1_witness :
    extractPatientOnlyByViewerRules
        (normalizeTextKeepNewlines ("q: hi\nתשובה: רוצה למות".data)) none =
      extractPatientOnlyByViewerRules
        (normalizeTextKeepNewlines ("q: hi\nתשובה: שלום".data)) none ∧
    riskScanRowItems [("רוצה למות".data)]
        (extractPatientOnlyByViewerRules
          (normalizeTextKeepNewlines ("q: hi\nתשובה: רוצה למות".data)) none) =
      riskScanRowItems [("רוצה למות".data)]
        (extractPatientOnlyByViewerRules
          (normalizeTextKeepNewlines ("q: hi\nתשובה: שלום".data)) none) := by
  have e1 : splitOnNL (normalizeTextKeepNewlines ("q: hi\nתשובה: רוצה למות".data)) =
      ["q: hi".data, "תשובה: רוצה למות".data] := by decide
  have e2 : splitOnNL (normalizeTextKeepNewlines ("q: hi\nתשובה: שלום".data)) =
      ["q: hi".data, "תשובה: שלום".data] := by decide
  have hst : (stepLine none none ("q: hi".data)).1 = some Speaker.patient := by decide
  have h : EquivFrom none none
      (splitOnNL (normalizeTextKeepNewlines ("q: hi\nתשובה: רוצה למות".data)))
      (splitOnNL (normalizeTextKeepNewlines ("q: hi\nתשובה: שלום".data))) := by
    rw [e1, e2]
    apply EquivFrom.consEq
    rw [hst]
    exact EquivFrom.consTher _ _ _ _ _ (by decide) (by decide) (EquivFrom.nil _)
  exact claim_C1_counterpart_excluded [("רוצה למות".data)] none _ _ h

/-- Counterexample to C1 as stated: the record `"תשובה: רוצה למות"` is
entirely counterpart-authored under the viewer speaker rules (the
subject-only string is empty), yet `scanIncremental` of the `risk_engine`
edge function, which matches against the whole normalized text, produces
a review item whose snippet_text is exactly that counterpart text. -/
theorem claim_C1_counterexample :
    extractPatientOnlyByViewerRules
      (normalizeTextKeepNewlines ("תשובה: רוצה למות".data)) none = [] ∧
    scanIncrementalRowItems ("רוצה למות".data) ("תשובה: רוצה למות".data) 160 =
      [("תשובה: רוצה למות".data)] := by
  exact ⟨by decide, by decide⟩

end Landbot

namespace Landbot

end Landbot

namespace Landbot

theorem snippetTokenWindow_bounds (toks : List Tok) (a b wb wa : Nat) (h : toks ≠ []) :
    (snippetTokenWindow toks a b wb wa).1 ≤ (snippetTokenWindow toks a b wb wa).2 ∧
    (snippetTokenWindow toks a b wb wa).2 ≤ toks.length := by
  have hlen : 0 < toks.length := List.length_pos.mpr h
  have h1 : (toks.takeWhile (fun t => t.e ≤ a)).length ≤ toks.length :=
    (List.takeWhile_sublist _).length_le
  rw [snippetTokenWindow]
  dsimp only
  constructor
  · split_ifs with hc1 hc2 hc2 <;> (apply le_min <;> omega)
  · split_ifs <;> exact min_le_left _ _

/-- C8.  Snippet windowing never goes out of range: for any in-text match
span, `buildSnippet` clamps its character window to the text bounds, the
window covers the match, and the ellipsis marker appears on a side
exactly when text on that side was clipped away; `snippetByWords` returns
the join of a token window clamped to the token list; `snippetAround`
returns a character window clamped to the text bounds. -/
theorem claim_C8_snippet_window (text : List Char) (idx len ctx windowN wb wa : Nat)
    (h : idx + len ≤ text.length) :
    (∃ s e : Nat, s ≤ idx ∧ idx + len ≤ e ∧ e ≤ text.length ∧
      buildSnippet text idx len ctx =
        (if 0 < s then "…".data else []) ++ ((text.drop s).take (e - s)) ++
        (if e < text.length then "…".data else [])) ∧
    (∃ lo hi : Nat, lo ≤ hi ∧ hi ≤ (tokens text).length ∧
      snippetByWords text idx len wb wa =
        joinSp ((((tokens text).drop lo).take (hi - lo)).map (fun t => t.w))) ∧
    (∃ lo hi : Nat, lo ≤ hi ∧ hi ≤ text.length ∧
      snippetAround text idx (idx + len) windowN = (text.drop lo).take (hi - lo)) := by
  refine ⟨?_, ?_, ?_⟩
  · refine ⟨idx - ctx, min text.length (idx + len + ctx), by omega, ?_, min_le_left _ _, rfl⟩
    exact le_min h (by omega)
  · by_cases htk : tokens text = []
    · refine ⟨0, 0, le_refl 0, by simp, ?_⟩
      rw [snippetByWords, if_pos htk, htk]
      rfl
    · obtain ⟨hb1, hb2⟩ :=
        snippetTokenWindow_bounds (tokens text) idx (idx + len) wb wa htk
      exact ⟨(snippetTokenWindow (tokens text) idx (idx + len) wb wa).1,
        (snippetTokenWindow (tokens text) idx (idx + len) wb wa).2, hb1, hb2,
        by rw [snippetByWords, if_neg htk]⟩
  · refine ⟨idx - windowN / 2, min text.length (idx + len + windowN / 2), ?_,
      min_le_left _ _, rfl⟩
    exact le_trans (by omega) (le_min h (by omega))

/-- Witness for C8 at a concrete text with a match at the very start. -/
theorem claim_C8_witness :
    (∃ s e : Nat, s ≤ 0 ∧ 0 + 2 ≤ e ∧ e ≤ ("ab cd ef".data).length ∧
      buildSnippet ("ab cd ef".data) 0 2 1 =
        (if 0 < s then "…".data else []) ++ ((("ab cd ef".data).drop s).take (e - s)) ++
        (if e < ("ab cd ef".data).length then "…".data else [])) ∧
    (∃ lo hi : Nat, lo ≤ hi ∧ hi ≤ (tokens ("ab cd ef".data)).length ∧
      snippetByWords ("ab cd ef".data) 0 2 2 2 =
        joinSp ((((tokens ("ab cd ef".data)).drop lo).take (hi - lo)).map (fun t => t.w))) ∧
    (∃ lo hi : Nat, lo ≤ hi ∧ hi ≤ ("ab cd ef".data).length ∧
      snippetAround ("ab cd ef".data) 0 (0 + 2) 160 =
        (("ab cd ef".data).drop lo).take (hi - lo)) :=
  claim_C8_snippet_window ("ab cd ef".data) 0 2 1 160 2 2 (by decide)

end Landbot

namespace Landbot

theorem mem_sortedInsert (a : Int) (l : List Int) (x : Int) :
    x ∈ sortedInsert a l ↔ x = a ∨ x ∈ l := by
  induction l with
  | nil => simp [sortedInsert]
  | cons b rest ih =>
    rw [sortedInsert]
    by_cases hab : a ≤ b
    · rw [if_pos hab]
      simp
    · rw [if_neg hab]
      simp only [List.mem_cons, ih]
      tauto

theorem mem_sortAsc (l : List Int) (x : Int) : x ∈ sortAsc l ↔ x ∈ l := by
  induction l with
  | nil => simp [sortAsc]
  | cons a rest ih =>
    rw [sortAsc, mem_sortedInsert]
    simp only [List.mem_cons, ih]

theorem le_scanWatermark (batch : List Int) : ∀ w0 : Int, w0 ≤ scanWatermark w0 batch := by
  induction batch with
  | nil =>
    intro w0
    simp [scanWatermark]
  | cons t rest ih =>
    intro w0
    rw [scanWatermark, List.foldl_cons]
    exact le_trans (le_max_left w0 t) (ih (max w0 t))

theorem scanWatermark_ge (batch : List Int) :
    ∀ w0 : Int, ∀ t ∈ batch, t ≤ scanWatermark w0 batch := by
  induction batch with
  | nil =>
    intro w0 t ht
    simp at ht
  | cons a rest ih =>
    intro w0 t ht
    rw [scanWatermark, List.foldl_cons]
    rcases List.mem_cons.mp ht with h1 | h1
    · exact le_trans (h1 ▸ le_max_right w0 a) (le_scanWatermark rest (max w0 a))
    · exact ih (max w0 a) t h1

theorem scanWatermark_mem_or (batch : List Int) :
    ∀ w0 : Int, scanWatermark w0 batch = w0 ∨ scanWatermark w0 batch ∈ batch := by
  induction batch with
  | nil =>
    intro w0
    exact Or.inl rfl
  | cons a rest ih =>
    intro w0
    rw [scanWatermark, List.foldl_cons]
    rcases ih (max w0 a) with h1 | h1
    · rcases max_choice w0 a with h2 | h2
      · exact Or.inl (by rw [scanWatermark] at h1; rw [h1, h2])
      · refine Or.inr (List.mem_cons_self a rest |> fun hm => ?_)
        rw [scanWatermark] at h1
        rw [h1, h2]
        exact List.mem_cons_self a rest
    · exact Or.inr (List.mem_cons_of_mem a h1)

theorem mem_fetchUsersBatch (table : List Int) (afterTime : Int) (limit : Nat) :
    ∀ t ∈ fetchUsersBatch table afterTime limit, afterTime < t ∧ t ∈ table := by
  intro t ht
  rw [fetchUsersBatch] at ht
  have h1 := List.take_subset limit _ ht
  have h2 := mem_sortAsc _ t |>.mp h1
  have h3 := List.mem_filter.mp h2
  exact ⟨by simpa using h3.2, h3.1⟩

/-- C6.  The watermark is monotonically non-decreasing across incremental
scan passes: a pass reads only rows whose ordering key is strictly greater
than the stored watermark; on an empty batch nothing is saved and the
watermark is unchanged; on a nonempty batch the saved watermark is the
maximum of the prior value and the fetched keys, which is itself the key
of a row actually scanned in that batch — never beyond what was scanned. -/
theorem claim_C6_watermark_monotone (table : List Int) (w0 : Int) (limit : Nat) :
    (∀ t ∈ fetchUsersBatch table w0 (scanBatchLimit limit), w0 < t ∧ t ∈ table) ∧
    w0 ≤ (scanIncrementalWatermark table w0 limit).1 ∧
    (fetchUsersBatch table w0 (scanBatchLimit limit) = [] →
      scanIncrementalWatermark table w0 limit = (w0, none)) ∧
    (fetchUsersBatch table w0 (scanBatchLimit limit) ≠ [] →
      (scanIncrementalWatermark table w0 limit).2 =
        some ((scanIncrementalWatermark table w0 limit).1) ∧
      (scanIncrementalWatermark table w0 limit).1 ∈
        fetchUsersBatch table w0 (scanBatchLimit limit) ∧
      (∀ t ∈ fetchUsersBatch table w0 (scanBatchLimit limit),
        t ≤ (scanIncrementalWatermark table w0 limit).1)) := by
  refine ⟨mem_fetchUsersBatch table w0 _, ?_, ?_, ?_⟩
  · rw [scanIncrementalWatermark]
    by_cases hb : fetchUsersBatch table w0 (scanBatchLimit limit) = []
    · rw [if_pos hb]
    · rw [if_neg hb]
      exact le_scanWatermark _ w0
  · intro hb
    rw [scanIncrementalWatermark, if_pos hb]
  · intro hb
    rw [scanIncrementalWatermark, if_neg hb]
    refine ⟨rfl, ?_, ?_⟩
    · rcases scanWatermark_mem_or (fetchUsersBatch table w0 (scanBatchLimit limit)) w0
        with h1 | h1
      · exfalso
        rcases List.exists_mem_of_ne_nil _ hb with ⟨t, ht⟩
        have h2 := (mem_fetchUsersBatch table w0 (scanBatchLimit limit) t ht).1
        have h3 := scanWatermark_ge _ w0 t ht
        omega
      · exact h1
    · exact fun t ht => scanWatermark_ge _ w0 t ht

/-- Witness for C6 at a concrete table and watermark. -/
theorem claim_C6_witness :
    (∀ t ∈ fetchUsersBatch [5, 2, 9, 3] 2 (scanBatchLimit 200), (2 : Int) < t ∧ t ∈ [5, 2, 9, 3]) ∧
    scanIncrementalWatermark [5, 2, 9, 3] 2 200 = (9, some 9) := by
  have h := claim_C6_watermark_monotone [5, 2, 9, 3] 2 200
  refine ⟨h.1, by decide⟩

end Landbot

namespace Landbot

theorem claimOne_none (q : List QJob) (q' : List QJob)
    (h : claimOne q = (none, q')) :
    q' = q ∧ q.filter (fun j => j.status = QStatus.NEW) = [] := by
  induction q generalizing q' with
  | nil =>
    rw [claimOne] at h
    simp at h
    simp [h]
  | cons j rest ih =>
    rw [claimOne] at h
    by_cases hj : j.status = QStatus.NEW
    · rw [if_pos hj] at h
      simp at h
    · rw [if_neg hj] at h
      dsimp only at h
      rcases hc : claimOne rest with ⟨r, rest2⟩
      rw [hc] at h
      dsimp only at h
      rw [Prod.mk.injEq] at h
      obtain ⟨hr, hq⟩ := h
      have hrest := ih rest2 (by rw [hc, ← hr])
      rw [← hq, hrest.1]
      refine ⟨rfl, ?_⟩
      rw [List.filter_cons, if_neg (by simpa using hj), hrest.2]

theorem claimOne_some (q : List QJob) (j : QJob) (q' : List QJob)
    (h : claimOne q = (some j, q')) :
    ∃ pre j0 post, q = pre ++ j0 :: post ∧ j0.status = QStatus.NEW ∧
      (∀ x ∈ pre, ¬x.status = QStatus.NEW) ∧
      j = { j0 with status := QStatus.PROCESSING } ∧
      q' = pre ++ { j0 with status := QStatus.PROCESSING } :: post := by
  induction q generalizing j q' with
  | nil =>
    rw [claimOne] at h
    simp at h
  | cons a rest ih =>
    rw [claimOne] at h
    by_cases ha : a.status = QStatus.NEW
    · rw [if_pos ha] at h
      rw [Prod.mk.injEq] at h
      obtain ⟨hr, hq⟩ := h
      simp at hr
      refine ⟨[], a, rest, by simp, ha, by simp, hr.symm, by simp [hq.symm]⟩
    · rw [if_neg ha] at h
      dsimp only at h
      rcases hc : claimOne rest with ⟨r, rest2⟩
      rw [hc] at h
      dsimp only at h
      rw [Prod.mk.injEq] at h
      obtain ⟨hr, hq⟩ := h
      obtain ⟨pre, j0, post, he, hnew, hpre, hj, he2⟩ := ih j rest2 (by rw [hc, hr])
      refine ⟨a :: pre, j0, post, by rw [List.cons_append, ← he], hnew, ?_, hj, ?_⟩
      · intro x hx
        rcases List.mem_cons.mp hx with h1 | h1
        · rw [h1]
          exact ha
        · exact hpre x h1
      · rw [← hq, List.cons_append, ← he2]

end Landbot

namespace Landbot

theorem claimOne_filter (q : List QJob) (j : QJob) (q1 : List QJob)
    (h : claimOne q = (some j, q1)) :
    ∃ j0 : QJob, j = { j0 with status := QStatus.PROCESSING } ∧
      q.filter (fun x => x.status = QStatus.NEW) =
        j0 :: q1.filter (fun x => x.status = QStatus.NEW) := by
  obtain ⟨pre, j0, post, he, hnew, hpre, hj, he2⟩ := claimOne_some q j q1 h
  refine ⟨j0, hj, ?_⟩
  have hpre0 : pre.filter (fun x => x.status = QStatus.NEW) = [] := by
    rw [List.filter_eq_nil_iff]
    intro a ha
    simpa using hpre a ha
  rw [he, he2, List.filter_append, List.filter_append, hpre0, List.nil_append,
    List.nil_append, List.filter_cons, List.filter_cons]
  rw [if_pos (by simpa using hnew), if_neg (by simp)]

theorem reduceOption_length_count (l : List (Option QJob)) :
    l.count none + l.reduceOption.length = l.length := by
  induction l with
  | nil => simp
  | cons a rest ih =>
    cases a with
    | none =>
      simp only [List.reduceOption_cons_of_none, List.count_cons, List.length_cons]
      simp only [beq_self_eq_true, if_true]
      omega
    | some v =>
      simp only [List.reduceOption_cons_of_some, List.count_cons, List.length_cons]
      have : (none == some v) = false := by simp
      simp [this]
      omega

theorem runClaims_spec (N : Nat) : ∀ q : List QJob,
    (runClaims N q).1.length = N ∧
    (runClaims N q).1.reduceOption.map (fun j => j.id) =
      ((q.filter (fun j => j.status = QStatus.NEW)).map (fun j => j.id)).take N ∧
    (runClaims N q).1.reduceOption.length = min N (countNEW q) := by
  induction N with
  | zero =>
    intro q
    refine ⟨rfl, by simp [runClaims, List.reduceOption], by simp [runClaims, List.reduceOption]⟩
  | succ N ih =>
    intro q
    rw [runClaims]
    rcases hc : claimOne q with ⟨r, q1⟩
    dsimp only
    cases r with
    | none =>
      obtain ⟨hq1, hfil⟩ := claimOne_none q q1 hc
      rw [hq1]
      obtain ⟨ih1, ih2, ih3⟩ := ih q
      refine ⟨by simp [ih1], ?_, ?_⟩
      · rw [List.reduceOption_cons_of_none, ih2, hfil]
        simp
      · rw [List.reduceOption_cons_of_none, ih3]
        have : countNEW q = 0 := by
          rw [countNEW, hfil]
          rfl
        simp [this]
    | some j =>
      obtain ⟨j0, hj, hfil⟩ := claimOne_filter q j q1 hc
      obtain ⟨ih1, ih2, ih3⟩ := ih q1
      have hcnt : countNEW q = countNEW q1 + 1 := by
        rw [countNEW, countNEW, hfil]
        simp
      refine ⟨by simp [ih1], ?_, ?_⟩
      · rw [List.reduceOption_cons_of_some, List.map_cons, ih2, hfil, List.map_cons,
          List.take_succ_cons, hj]
      · rw [List.reduceOption_cons_of_some, List.length_cons, ih3, hcnt]
        omega

/-- C2.  Exactly-once claim: with `M = countNEW q` NEW jobs and `M ≤ N`
concurrent callers (any interleaving of the atomic claim RPC), the
successful results are exactly the NEW jobs, in creation order — so each
NEW job goes to exactly one caller — exactly `M` calls succeed, and the
remaining `N - M` calls get the empty result, not an error. -/
theorem claim_C2_exactly_once_claim (q : List QJob) (N : Nat) (h : countNEW q ≤ N) :
    (runClaims N q).1.reduceOption.map (fun j => j.id) =
      (q.filter (fun j => j.status = QStatus.NEW)).map (fun j => j.id) ∧
    (runClaims N q).1.reduceOption.length = countNEW q ∧
    (runClaims N q).1.length = N ∧
    (runClaims N q).1.count none = N - countNEW q := by
  obtain ⟨h1, h2, h3⟩ := runClaims_spec N q
  have hlen : ((q.filter (fun j => j.status = QStatus.NEW)).map (fun j => j.id)).length =
      countNEW q := by
    rw [List.length_map]
    rfl
  have htake : ((q.filter (fun j => j.status = QStatus.NEW)).map (fun j => j.id)).take N =
      (q.filter (fun j => j.status = QStatus.NEW)).map (fun j => j.id) :=
    List.take_of_length_le (by omega)
  refine ⟨by rw [h2, htake], by rw [h3]; omega, h1, ?_⟩
  have := reduceOption_length_count (runClaims N q).1
  rw [h1, h3] at this
  omega

/-- Witness for C2: three concurrent callers against two NEW jobs. -/
theorem claim_C2_witness :
    (runClaims 3 [(⟨1, 10, QStatus.NEW, none⟩ : QJob), ⟨2, 20, QStatus.NEW, none⟩]).1.reduceOption.map
        (fun j => j.id) =
      ([(⟨1, 10, QStatus.NEW, none⟩ : QJob), ⟨2, 20, QStatus.NEW, none⟩].filter
        (fun j => j.status = QStatus.NEW)).map (fun j => j.id) ∧
    (runClaims 3 [⟨1, 10, QStatus.NEW, none⟩,
      ⟨2, 20, QStatus.NEW, none⟩]).1.reduceOption.length =
      countNEW [(⟨1, 10, QStatus.NEW, none⟩ : QJob), ⟨2, 20, QStatus.NEW, none⟩] ∧
    (runClaims 3 [(⟨1, 10, QStatus.NEW, none⟩ : QJob), ⟨2, 20, QStatus.NEW, none⟩]).1.length = 3 ∧
    (runClaims 3 [(⟨1, 10, QStatus.NEW, none⟩ : QJob), ⟨2, 20, QStatus.NEW, none⟩]).1.count none =
      3 - countNEW [(⟨1, 10, QStatus.NEW, none⟩ : QJob), ⟨2, 20, QStatus.NEW, none⟩] :=
  claim_C2_exactly_once_claim
    [(⟨1, 10, QStatus.NEW, none⟩ : QJob), ⟨2, 20, QStatus.NEW, none⟩] 3 (by decide)

end Landbot

namespace Landbot

theorem nodup_ids_split (pre post : List QJob) (j0 : QJob)
    (h : ((pre ++ j0 :: post).map (fun j => j.id)).Nodup) :
    (∀ x ∈ pre, x.id ≠ j0.id) ∧ (∀ x ∈ post, x.id ≠ j0.id) := by
  rw [List.map_append, List.map_cons, List.nodup_append] at h
  obtain ⟨h1, h2, h3⟩ := h
  constructor
  · intro x hx heq
    exact h3 (List.mem_map_of_mem _ hx) (heq ▸ List.mem_cons_self _ _)
  · intro x hx heq
    rw [List.nodup_cons] at h2
    exact h2.1 (heq ▸ List.mem_map_of_mem _ hx)

theorem finishQueue_decomp (pre post : List QJob) (j0 : QJob) (st : QStatus)
    (msg : Option (List Char))
    (hpre : ∀ x ∈ pre, x.id ≠ j0.id) (hpost : ∀ x ∈ post, x.id ≠ j0.id) :
    finishQueue (pre ++ { j0 with status := QStatus.PROCESSING } :: post) j0.id st msg =
      pre ++ { j0 with status := st, last_error := msg } :: post := by
  rw [finishQueue, List.map_append, List.map_cons]
  congr 1
  · apply map_eq_self_of
    intro x hx
    rw [if_neg]
    intro hc
    exact hpre x hx hc.1
  · congr 1
    · rw [if_pos ⟨rfl, rfl⟩]
    · apply map_eq_self_of
      intro x hx
      rw [if_neg]
      intro hc
      exact hpost x hx hc.1

theorem ids_split_eq (pre post : List QJob) (x y : QJob) (h : x.id = y.id) :
    (pre ++ x :: post).map (fun j => j.id) = (pre ++ y :: post).map (fun j => j.id) := by
  simp [List.map_append, h]

theorem countNEW_split (pre post : List QJob) (x : QJob) :
    countNEW (pre ++ x :: post) =
      countNEW pre + (if x.status = QStatus.NEW then 1 else 0) + countNEW post := by
  rw [countNEW, countNEW, countNEW, List.filter_append, List.filter_cons, List.length_append]
  by_cases hx : x.status = QStatus.NEW
  · rw [if_pos (by simpa using hx), if_pos hx]
    simp only [List.length_cons]
    omega
  · rw [if_neg (by simpa using hx), if_neg hx]
    omega

theorem countDONE_split (pre post : List QJob) (x : QJob) :
    countDONE (pre ++ x :: post) =
      countDONE pre + (if x.status = QStatus.DONE then 1 else 0) + countDONE post := by
  rw [countDONE, countDONE, countDONE, List.filter_append, List.filter_cons, List.length_append]
  by_cases hx : x.status = QStatus.DONE
  · rw [if_pos (by simpa using hx), if_pos hx]
    simp only [List.length_cons]
    omega
  · rw [if_neg (by simpa using hx), if_neg hx]
    omega

end Landbot

namespace Landbot

/-- C5: the driver loop of `scripts/process_queue_worker.mjs` isolates per-job
failures.  For any processing outcome function, any fuel (`MAX_JOBS_PER_RUN`),
any queue with distinct positive job ids and any starting count:
(a) no job is left PROCESSING that was not already PROCESSING at the start;
(b) every job ending in ERROR either started as that ERROR row or records
    exactly its outcome's error message truncated to at most 2000 characters
    via `finish(id, ERROR, message.slice(0, 2000))`;
(c) failed jobs are not counted: the count increases exactly by the number of
    jobs newly brought to DONE;
(d) the loop does not abort the batch on a failure: it keeps claiming, so the
    number of NEW jobs drops by `min fuel (countNEW q)`. -/
theorem claim_C5_failure_isolated (outcome : Nat → Except (List Char) Unit) :
    ∀ (fuel : Nat) (q : List QJob) (cnt : Nat),
      (q.map (fun j => j.id)).Nodup → (∀ j ∈ q, 0 < j.id) →
      (∀ jf ∈ (mainLoop outcome fuel q cnt).1, jf.status = QStatus.PROCESSING →
          ∃ j0 ∈ q, j0.id = jf.id ∧ j0.status = QStatus.PROCESSING) ∧
      (∀ jf ∈ (mainLoop outcome fuel q cnt).1, jf.status = QStatus.ERROR →
          (∃ j0 ∈ q, j0.id = jf.id ∧ j0.users_total_id = jf.users_total_id ∧
            j0.status = QStatus.ERROR ∧ j0.last_error = jf.last_error) ∨
          (∃ msg, outcome jf.users_total_id = Except.error msg ∧
            jf.last_error = some (msg.take 2000) ∧ (msg.take 2000).length ≤ 2000)) ∧
      (mainLoop outcome fuel q cnt).2 + countDONE q =
          cnt + countDONE (mainLoop outcome fuel q cnt).1 ∧
      countNEW (mainLoop outcome fuel q cnt).1 = countNEW q - min fuel (countNEW q) := by
  intro fuel
  induction fuel with
  | zero =>
    intro q cnt hnd hpos
    refine ⟨?_, ?_, ?_, ?_⟩
    · intro jf hjf hst
      exact ⟨jf, hjf, rfl, hst⟩
    · intro jf hjf hst
      exact Or.inl ⟨jf, hjf, rfl, rfl, hst, rfl⟩
    · rfl
    · simp [mainLoop]
  | succ fuel ih =>
    intro q cnt hnd hpos
    rcases hc : claimOne q with ⟨oj, q1⟩
    cases oj with
    | none =>
      obtain ⟨hq1, hfil⟩ := claimOne_none q q1 hc
      have hm : mainLoop outcome (fuel + 1) q cnt = (q1, cnt) := by
        simp only [mainLoop, hc]
      have h0 : countNEW q = 0 := by
        rw [countNEW, hfil]
        rfl
      subst hq1
      rw [hm]
      refine ⟨?_, ?_, ?_, ?_⟩
      · intro jf hjf hst
        exact ⟨jf, hjf, rfl, hst⟩
      · intro jf hjf hst
        exact Or.inl ⟨jf, hjf, rfl, rfl, hst, rfl⟩
      · rfl
      · rw [h0]
        simp
    | some j =>
      obtain ⟨pre, j0, post, he, hnew, hpreNEW, hj, he2⟩ := claimOne_some q j q1 hc
      have hj0mem : j0 ∈ q := by
        rw [he]
        exact List.mem_append_right _ (List.mem_cons_self _ _)
      have hid0 : 0 < j0.id := hpos j0 hj0mem
      have hjid : j.id = j0.id := by rw [hj]
      have hjuid : j.users_total_id = j0.users_total_id := by rw [hj]
      have hnid : ¬(j.id = 0) := by omega
      have hsplit := nodup_ids_split pre post j0 (by rw [← he]; exact hnd)
      cases ho : outcome j.users_total_id with
      | ok u =>
        have hfq : finishQueue q1 j.id QStatus.DONE none =
            pre ++ { j0 with status := QStatus.DONE, last_error := none } :: post := by
          rw [he2, hjid]
          exact finishQueue_decomp pre post j0 _ _ hsplit.1 hsplit.2
        have hm : mainLoop outcome (fuel + 1) q cnt =
            mainLoop outcome fuel
              (pre ++ { j0 with status := QStatus.DONE, last_error := none } :: post)
              (cnt + 1) := by
          simp only [mainLoop, hc, if_neg hnid, ho, hfq]
        set q2 := pre ++ ({ j0 with status := QStatus.DONE, last_error := none } : QJob) :: post with hq2
        have hnd2 : (q2.map (fun j => j.id)).Nodup := by
          rw [hq2, ids_split_eq pre post
            ({ j0 with status := QStatus.DONE, last_error := none }) j0 rfl, ← he]
          exact hnd
        have hpos2 : ∀ x ∈ q2, 0 < x.id := by
          intro x hx
          rw [hq2] at hx
          rcases List.mem_append.mp hx with h1 | h1
          · exact hpos x (by rw [he]; exact List.mem_append_left _ h1)
          · rcases List.mem_cons.mp h1 with h2 | h2
            · rw [h2]
              exact hid0
            · exact hpos x (by rw [he]; exact List.mem_append_right _ (List.mem_cons_of_mem _ h2))
        obtain ⟨iha, ihb, ihc', ihd⟩ := ih q2 (cnt + 1) hnd2 hpos2
        rw [hm]
        have hmemq : ∀ j1, j1 ∈ q2 → j1 = { j0 with status := QStatus.DONE, last_error := none } ∨ j1 ∈ q := by
          intro j1 h1
          rw [hq2] at h1
          rcases List.mem_append.mp h1 with h2 | h2
          · exact Or.inr (by rw [he]; exact List.mem_append_left _ h2)
          · rcases List.mem_cons.mp h2 with h3 | h3
            · exact Or.inl h3
            · exact Or.inr (by rw [he]; exact List.mem_append_right _ (List.mem_cons_of_mem _ h3))
        refine ⟨?_, ?_, ?_, ?_⟩
        · intro jf hjf hst
          obtain ⟨j1, hj1mem, hj1id, hj1st⟩ := iha jf hjf hst
          rcases hmemq j1 hj1mem with h2 | h2
          · rw [h2] at hj1st
            simp at hj1st
          · exact ⟨j1, h2, hj1id, hj1st⟩
        · intro jf hjf hst
          rcases ihb jf hjf hst with ⟨j1, hj1mem, hj1id, hj1uid, hj1st, hj1err⟩ | hr
          · rcases hmemq j1 hj1mem with h2 | h2
            · rw [h2] at hj1st
              simp at hj1st
            · exact Or.inl ⟨j1, h2, hj1id, hj1uid, hj1st, hj1err⟩
          · exact Or.inr hr
        · have hdq2 : countDONE q2 = countDONE q + 1 := by
            rw [hq2, he, countDONE_split, countDONE_split, if_pos rfl,
              if_neg (by rw [hnew]; decide)]
            omega
          omega
        · have hnq2 : countNEW q = countNEW q2 + 1 := by
            rw [hq2, he, countNEW_split, countNEW_split, if_pos hnew,
              if_neg (by simp)]
            omega
          rw [ihd, hnq2, Nat.succ_min_succ]
          omega
      | error msg =>
        have hfq : finishQueue q1 j.id QStatus.ERROR (some (msg.take 2000)) =
            pre ++ { j0 with status := QStatus.ERROR, last_error := some (msg.take 2000) } :: post := by
          rw [he2, hjid]
          exact finishQueue_decomp pre post j0 _ _ hsplit.1 hsplit.2
        have hm : mainLoop outcome (fuel + 1) q cnt =
            mainLoop outcome fuel
              (pre ++ { j0 with status := QStatus.ERROR, last_error := some (msg.take 2000) } :: post) cnt := by
          simp only [mainLoop, hc, if_neg hnid, ho, hfq]
        set q2 := pre ++ ({ j0 with status := QStatus.ERROR, last_error := some (msg.take 2000) } : QJob) :: post with hq2
        have hnd2 : (q2.map (fun j => j.id)).Nodup := by
          rw [hq2, ids_split_eq pre post
            ({ j0 with status := QStatus.ERROR, last_error := some (msg.take 2000) }) j0 rfl, ← he]
          exact hnd
        have hpos2 : ∀ x ∈ q2, 0 < x.id := by
          intro x hx
          rw [hq2] at hx
          rcases List.mem_append.mp hx with h1 | h1
          · exact hpos x (by rw [he]; exact List.mem_append_left _ h1)
          · rcases List.mem_cons.mp h1 with h2 | h2
            · rw [h2]
              exact hid0
            · exact hpos x (by rw [he]; exact List.mem_append_right _ (List.mem_cons_of_mem _ h2))
        obtain ⟨iha, ihb, ihc', ihd⟩ := ih q2 cnt hnd2 hpos2
        rw [hm]
        have hmemq : ∀ j1, j1 ∈ q2 →
            j1 = { j0 with status := QStatus.ERROR, last_error := some (msg.take 2000) } ∨ j1 ∈ q := by
          intro j1 h1
          rw [hq2] at h1
          rcases List.mem_append.mp h1 with h2 | h2
          · exact Or.inr (by rw [he]; exact List.mem_append_left _ h2)
          · rcases List.mem_cons.mp h2 with h3 | h3
            · exact Or.inl h3
            · exact Or.inr (by rw [he]; exact List.mem_append_right _ (List.mem_cons_of_mem _ h3))
        refine ⟨?_, ?_, ?_, ?_⟩
        · intro jf hjf hst
          obtain ⟨j1, hj1mem, hj1id, hj1st⟩ := iha jf hjf hst
          rcases hmemq j1 hj1mem with h2 | h2
          · rw [h2] at hj1st
            simp at hj1st
          · exact ⟨j1, h2, hj1id, hj1st⟩
        · intro jf hjf hst
          rcases ihb jf hjf hst with ⟨j1, hj1mem, hj1id, hj1uid, hj1st, hj1err⟩ | hr
          · rcases hmemq j1 hj1mem with h2 | h2
            · refine Or.inr ⟨msg, ?_, ?_, ?_⟩
              · rw [← hj1uid, h2]
                show outcome j0.users_total_id = Except.error msg
                rw [← hjuid]
                exact ho
              · rw [← hj1err, h2]
              · rw [List.length_take]
                omega
            · exact Or.inl ⟨j1, h2, hj1id, hj1uid, hj1st, hj1err⟩
          · exact Or.inr hr
        · have hdq2 : countDONE q2 = countDONE q := by
            rw [hq2, he, countDONE_split, countDONE_split,
              if_neg (by simp), if_neg (by rw [hnew]; decide)]
          omega
        · have hnq2 : countNEW q = countNEW q2 + 1 := by
            rw [hq2, he, countNEW_split, countNEW_split, if_pos hnew,
              if_neg (by simp)]
            omega
          rw [ihd, hnq2, Nat.succ_min_succ]
          omega

end Landbot

namespace Landbot

theorem claim_C5_witness :
    (([(⟨1, 10, QStatus.NEW, none⟩ : QJob), ⟨2, 20, QStatus.NEW, none⟩].map (fun j => j.id)).Nodup) ∧
    (∀ j ∈ [(⟨1, 10, QStatus.NEW, none⟩ : QJob), ⟨2, 20, QStatus.NEW, none⟩], 0 < j.id) ∧
    ((∀ jf ∈ (mainLoop (fun uid => if uid = 10 then Except.error "boom".data else Except.ok ()) 5 [(⟨1, 10, QStatus.NEW, none⟩ : QJob), ⟨2, 20, QStatus.NEW, none⟩] 0).1, jf.status = QStatus.PROCESSING →
        ∃ j0 ∈ [(⟨1, 10, QStatus.NEW, none⟩ : QJob), ⟨2, 20, QStatus.NEW, none⟩], j0.id = jf.id ∧ j0.status = QStatus.PROCESSING) ∧
      (∀ jf ∈ (mainLoop (fun uid => if uid = 10 then Except.error "boom".data else Except.ok ()) 5 [(⟨1, 10, QStatus.NEW, none⟩ : QJob), ⟨2, 20, QStatus.NEW, none⟩] 0).1, jf.status = QStatus.ERROR →
        (∃ j0 ∈ [(⟨1, 10, QStatus.NEW, none⟩ : QJob), ⟨2, 20, QStatus.NEW, none⟩], j0.id = jf.id ∧ j0.users_total_id = jf.users_total_id ∧
          j0.status = QStatus.ERROR ∧ j0.last_error = jf.last_error) ∨
        (∃ msg, (fun uid => if uid = 10 then Except.error "boom".data else Except.ok ()) jf.users_total_id = Except.error msg ∧
          jf.last_error = some (msg.take 2000) ∧ (msg.take 2000).length ≤ 2000)) ∧
      (mainLoop (fun uid => if uid = 10 then Except.error "boom".data else Except.ok ()) 5 [(⟨1, 10, QStatus.NEW, none⟩ : QJob), ⟨2, 20, QStatus.NEW, none⟩] 0).2 + countDONE [(⟨1, 10, QStatus.NEW, none⟩ : QJob), ⟨2, 20, QStatus.NEW, none⟩] = 0 + countDONE (mainLoop (fun uid => if uid = 10 then Except.error "boom".data else Except.ok ()) 5 [(⟨1, 10, QStatus.NEW, none⟩ : QJob), ⟨2, 20, QStatus.NEW, none⟩] 0).1 ∧
      countNEW (mainLoop (fun uid => if uid = 10 then Except.error "boom".data else Except.ok ()) 5 [(⟨1, 10, QStatus.NEW, none⟩ : QJob), ⟨2, 20, QStatus.NEW, none⟩] 0).1 = countNEW [(⟨1, 10, QStatus.NEW, none⟩ : QJob), ⟨2, 20, QStatus.NEW, none⟩] - min 5 (countNEW [(⟨1, 10, QStatus.NEW, none⟩ : QJob), ⟨2, 20, QStatus.NEW, none⟩])) := by
  refine ⟨by decide, by decide, ?_⟩
  exact claim_C5_failure_isolated (fun uid => if uid = 10 then Except.error "boom".data else Except.ok ()) 5 [(⟨1, 10, QStatus.NEW, none⟩ : QJob), ⟨2, 20, QStatus.NEW, none⟩] 0 (by decide) (by decide)

end Landbot

namespace Landbot

/-- C3: the conflict-aware insert path (`upsertRiskReview` of
`scripts/risk-scan.mjs`, backed by the migration's unique index) has
insert-if-absent semantics: a row whose dedup key is already present is
silently ignored — no error, the store (including reviewer-decision fields of
the existing row) is left byte-for-byte unchanged — and otherwise the row is
appended without ever duplicating a key; two callers racing on the same item
still produce the single-insert result.  The check-then-act writer of
`src/unnamed/part_003` does not have this property (see the counterexample). -/
theorem claim_C3_store_enforced_dedup (store : List RRow) (it : RRow) :
    (∀ r ∈ store, keyOf r = keyOf it → upsertRiskReview store it = Except.ok store) ∧
    (∃ s', upsertRiskReview store it = Except.ok s' ∧
      (∀ r ∈ store, r ∈ s') ∧
      ((store.map keyOf).Nodup → (s'.map keyOf).Nodup) ∧
      racedUpsert store it it = Except.ok s') := by
  by_cases h : store.any (fun r => decide (keyOf r = keyOf it)) = true
  · constructor
    · intro r _ _
      rw [upsertRiskReview, if_pos h]
    · refine ⟨store, by rw [upsertRiskReview, if_pos h], fun r hr => hr, fun hn => hn, ?_⟩
      simp only [racedUpsert, upsertRiskReview, if_pos h]
  · have hkey : ¬ ∃ r ∈ store, keyOf r = keyOf it := by
      intro ⟨r, hr, hk⟩
      exact h (List.any_eq_true.mpr ⟨r, hr, by simpa using hk⟩)
    constructor
    · intro r hr hk
      exact absurd ⟨r, hr, hk⟩ hkey
    · refine ⟨store ++ [it], by rw [upsertRiskReview, if_neg h],
        fun r hr => List.mem_append_left _ hr, ?_, ?_⟩
      · intro hn
        rw [List.map_append, List.map_cons, List.map_nil, List.nodup_append]
        refine ⟨hn, List.nodup_singleton _, ?_⟩
        intro a ha hb
        rcases List.mem_map.mp ha with ⟨r, hr, hk⟩
        rcases List.mem_singleton.mp hb with rfl
        exact hkey ⟨r, hr, hk⟩
      · have h2 : ((store ++ [it]).any (fun r => decide (keyOf r = keyOf it))) = true :=
          List.any_eq_true.mpr ⟨it, List.mem_append_right _ (List.mem_cons_self _ _), by simp⟩
        simp only [racedUpsert, upsertRiskReview, if_neg h, if_pos h2]

/-- Witness for C3: a store holding one reviewed row; inserting an item with
the same dedup key but fresh payload is silently ignored and the reviewed row
survives unchanged. -/
theorem claim_C3_witness :
    keyOf (⟨0, [], ['h'], [], ['k'], ['r'], some ['t'], some ['b']⟩ : RRow) =
      keyOf (⟨0, [], ['h'], ['s'], ['k'], ['p'], none, none⟩ : RRow) ∧
    upsertRiskReview [(⟨0, [], ['h'], [], ['k'], ['r'], some ['t'], some ['b']⟩ : RRow)]
        (⟨0, [], ['h'], ['s'], ['k'], ['p'], none, none⟩ : RRow) =
      Except.ok [(⟨0, [], ['h'], [], ['k'], ['r'], some ['t'], some ['b']⟩ : RRow)] :=
  ⟨by decide,
    (claim_C3_store_enforced_dedup
      [(⟨0, [], ['h'], [], ['k'], ['r'], some ['t'], some ['b']⟩ : RRow)]
      (⟨0, [], ['h'], ['s'], ['k'], ['p'], none, none⟩ : RRow)).1
      (⟨0, [], ['h'], [], ['k'], ['r'], some ['t'], some ['b']⟩ : RRow)
      (by decide) (by decide)⟩

/-- Counterexample for C3 as stated: the Review Writer of
`src/unnamed/part_003` deduplicates by an application-side check-then-act
(`existsRiskRow` then plain `insertRiskRow`), not by the conflict-aware
insert; two of its callers racing on one dedup key both pass the probe and
the second INSERT raises a duplicate-key error, while the conflict-aware
path yields the single row silently. -/
theorem claim_C3_counterexample :
    existsRiskRow [] (keyOf (⟨0, [], ['h'], ['s'], ['k'], ['p'], none, none⟩ : RRow)) = false ∧
    racedPart003 [] (⟨0, [], ['h'], ['s'], ['k'], ['p'], none, none⟩ : RRow)
      (⟨0, [], ['h'], ['s'], ['k'], ['p'], none, none⟩ : RRow) = Except.error () ∧
    racedUpsert [] (⟨0, [], ['h'], ['s'], ['k'], ['p'], none, none⟩ : RRow)
      (⟨0, [], ['h'], ['s'], ['k'], ['p'], none, none⟩ : RRow) =
        Except.ok [(⟨0, [], ['h'], ['s'], ['k'], ['p'], none, none⟩ : RRow)] := by
  refine ⟨rfl, rfl, rfl⟩

end Landbot
